import Mathlib

/-!
Verification of the `lmsal_archive_scrape.py` solar-flare scraper.

The development shallowly embeds the script's pure data-processing core:

* the date-time values that `pandas` produces for the two parse calls the
  script makes (`pd.to_datetime(..., format="%d-%b-%Y %H:%M")` and the
  default flexible `pd.to_datetime(..., errors="coerce")`), modelled by the
  `DT` structure together with executable parsers over `String`;
* the HTML rows the BeautifulSoup calls deliver (`Td`, `Anchor`,
  `HtmlTable`), so that `fetch_snapshot_links`, `fetch_events_from_snapshot`
  and `fetch_archive_summary_table` become pure functions from page content
  to extracted rows;
* the merge pipelines of `update_events_csv` and `update_summary_csv`
  (concatenate, re-parse the ordering columns, stable sort, column-subset
  dedup, write), as pure functions from (prior table, fresh extraction) to
  (written table, reported row delta).  The persisted CSV is modelled as the
  list of its rows with all fields as written text, so equality of tables is
  byte identity of the files.

`pandas.sort_values` on a list of keys uses a stable lexicographic sort with
missing values placed last regardless of direction; `sortStable` below is a
stable insertion sort parameterised by the corresponding boolean preorder.
`drop_duplicates(keep="first")`/`(keep="last")` keep the first/last occurrence
of each key in the current row order; `dedupKeepFirstBy`/`dedupKeepLastBy`
model them.
-/

namespace LmsalScrape

/-- Calendar date-time point, the model of a (non-NaT) `pandas.Timestamp`
as produced by the script's parse calls (second granularity suffices: the
formats involved have none finer). -/
structure DT where
  year : Nat
  month : Nat
  day : Nat
  hour : Nat
  minute : Nat
  second : Nat
deriving DecidableEq, Repr

/-- Linear chronological key of a date-time; on in-range field values this
orders `DT`s exactly as `pandas` orders timestamps. -/
def DT.key (d : DT) : Nat :=
  ((((d.year * 13 + d.month) * 32 + d.day) * 24 + d.hour) * 60 + d.minute) * 60 + d.second

/-- Field ranges accepted by the parse calls (out-of-range fields make
`pd.to_datetime(..., errors="coerce")` yield NaT). -/
def DT.wf (d : DT) : Prop :=
  1 ≤ d.month ∧ d.month ≤ 12 ∧ 1 ≤ d.day ∧ d.day ≤ 31 ∧
    d.hour ≤ 23 ∧ d.minute ≤ 59 ∧ d.second ≤ 59 ∧ d.year ≤ 9999

instance (d : DT) : Decidable d.wf := by unfold DT.wf; infer_instance

/-- Smart constructor used by all parsers: range-check the fields. -/
def mkDT? (y mo dd hh mi se : Nat) : Option DT :=
  let d : DT := ⟨y, mo, dd, hh, mi, se⟩
  if d.wf then some d else none

/-- Decimal digit value of a character, if any. -/
def digit? (c : Char) : Option Nat :=
  if '0' ≤ c ∧ c ≤ '9' then some (c.toNat - 48) else none

/-- Month number of a three-letter English month abbreviation, the `%b`
field of the script's strict parse format. -/
def month3? (a b c : Char) : Option Nat :=
  match a, b, c with
  | 'J', 'a', 'n' => some 1
  | 'F', 'e', 'b' => some 2
  | 'M', 'a', 'r' => some 3
  | 'A', 'p', 'r' => some 4
  | 'M', 'a', 'y' => some 5
  | 'J', 'u', 'n' => some 6
  | 'J', 'u', 'l' => some 7
  | 'A', 'u', 'g' => some 8
  | 'S', 'e', 'p' => some 9
  | 'O', 'c', 't' => some 10
  | 'N', 'o', 'v' => some 11
  | 'D', 'e', 'c' => some 12
  | _, _, _ => none

/-- Character-level worker of `parse_dmy_hm`. -/
def parse_dmy_hm_chars : List Char → Option DT
  | [d1, d2, q1, a, b, c, q2, y1, y2, y3, y4, sp, h1, h2, co, n1, n2] =>
    if q1 = '-' ∧ q2 = '-' ∧ sp = ' ' ∧ co = ':' then
      match digit? d1, digit? d2, digit? y1, digit? y2, digit? y3, digit? y4,
          digit? h1, digit? h2, digit? n1, digit? n2, month3? a b c with
      | some e1, some e2, some a1, some a2, some a3, some a4,
        some f1, some f2, some g1, some g2, some mo =>
        mkDT? (((a1 * 10 + a2) * 10 + a3) * 10 + a4) mo (e1 * 10 + e2)
          (f1 * 10 + f2) (g1 * 10 + g2) 0
      | _, _, _, _, _, _, _, _, _, _, _ => none
    else none
  | _ => none

/-- Modelled from the library call `pd.to_datetime(s, format="%d-%b-%Y %H:%M",
errors="coerce")`: parse `DD-Mon-YYYY HH:MM`, `none` standing for NaT.
(The model accepts the zero-padded shape the archive renders.) -/
def parse_dmy_hm (s : String) : Option DT :=
  parse_dmy_hm_chars s.data

/-- Character-level worker of `parse_ymd_hms`. -/
def parse_ymd_hms_chars : List Char → Option DT
  | [y1, y2, y3, y4, q1, m1, m2, q2, d1, d2, sp, h1, h2, c1, n1, n2, c2, s1, s2] =>
    if q1 = '-' ∧ q2 = '-' ∧ sp = ' ' ∧ c1 = ':' ∧ c2 = ':' then
      match digit? y1, digit? y2, digit? y3, digit? y4, digit? m1, digit? m2,
          digit? d1, digit? d2, digit? h1, digit? h2, digit? n1, digit? n2,
          digit? s1, digit? s2 with
      | some a1, some a2, some a3, some a4, some b1, some b2, some e1, some e2,
        some f1, some f2, some g1, some g2, some i1, some i2 =>
        mkDT? (((a1 * 10 + a2) * 10 + a3) * 10 + a4) (b1 * 10 + b2) (e1 * 10 + e2)
          (f1 * 10 + f2) (g1 * 10 + g2) (i1 * 10 + i2)
      | _, _, _, _, _, _, _, _, _, _, _, _, _, _ => none
    else none
  | _ => none

/-- Parse the canonical `YYYY-MM-DD HH:MM:SS` text that `pandas.to_csv`
writes for a datetime column; `none` standing for NaT. -/
def parse_ymd_hms (s : String) : Option DT :=
  parse_ymd_hms_chars s.data

/-- Modelled from the library call `pd.to_datetime(s, errors="coerce")` with
no format: the flexible parser, restricted to the two text shapes that occur
in this pipeline (the archive's `DD-Mon-YYYY HH:MM` cells and the
`YYYY-MM-DD HH:MM:SS` text of a previously persisted datetime column).
Anything else is NaT (`none`). -/
def to_datetime_flex (s : String) : Option DT :=
  match parse_ymd_hms s with
  | some d => some d
  | none => parse_dmy_hm s

/-- Render one date-time the way `pandas.to_csv` writes a datetime cell. -/
def renderDT (d : DT) : String :=
  ⟨[Nat.digitChar (d.year / 1000 % 10), Nat.digitChar (d.year / 100 % 10),
    Nat.digitChar (d.year / 10 % 10), Nat.digitChar (d.year % 10), '-',
    Nat.digitChar (d.month / 10 % 10), Nat.digitChar (d.month % 10), '-',
    Nat.digitChar (d.day / 10 % 10), Nat.digitChar (d.day % 10), ' ',
    Nat.digitChar (d.hour / 10 % 10), Nat.digitChar (d.hour % 10), ':',
    Nat.digitChar (d.minute / 10 % 10), Nat.digitChar (d.minute % 10), ':',
    Nat.digitChar (d.second / 10 % 10), Nat.digitChar (d.second % 10)]⟩

/-- Render a possibly-NaT cell the way `pandas.to_csv` writes it (NaT is the
empty field). -/
def renderOptDT : Option DT → String
  | none => ""
  | some d => renderDT d

/-! ## Generic list operations

`sortStable` is the stable sort behind `DataFrame.sort_values` (multi-key
sorts in `pandas` use a stable lexicographic sort; the script's only
tie-sensitive sort is multi-key).  `dedupKeepFirstBy` / `dedupKeepLastBy` are
`drop_duplicates(subset=[key], keep="first"/"last")`. -/

/-- Insert `a` into `l` before the first element `b` with `le a b`; on a
sorted list this is one step of a stable insertion sort (an element arriving
from earlier in the input is placed before its ties). -/
def insertSorted (le : α → α → Bool) (a : α) : List α → List α
  | [] => [a]
  | b :: t => if le a b then a :: b :: t else b :: insertSorted le a t

/-- Stable insertion sort: ties keep their input order. -/
def sortStable (le : α → α → Bool) (l : List α) : List α :=
  l.foldr (insertSorted le) []

/-- Insert `a` into `l` after every element `b` with `le b a`: the placement
a stable sort gives to a final input element.  Used only in proofs. -/
def insertLast (le : α → α → Bool) (a : α) : List α → List α
  | [] => [a]
  | b :: t => if le b a then b :: insertLast le a t else a :: b :: t

/-- Fuel-driven helper for `dedupKeepFirstBy` (structural recursion so that
the kernel can evaluate it; the fuel is always at least the list length). -/
def dedupFirstAux (k : α → κ) [DecidableEq κ] : Nat → List α → List α
  | _, [] => []
  | 0, _ :: _ => []
  | fuel + 1, a :: t => a :: dedupFirstAux k fuel (t.filter fun x => decide (k x ≠ k a))

/-- `drop_duplicates(subset=[k], keep="first")`: keep the first row of each
key, in the current row order. -/
def dedupKeepFirstBy (k : α → κ) [DecidableEq κ] (l : List α) : List α :=
  dedupFirstAux k l.length l

/-- `drop_duplicates(subset=[k], keep="last")`: a row survives exactly when
no later row carries the same key. -/
def dedupKeepLastBy (k : α → κ) [DecidableEq κ] : List α → List α
  | [] => []
  | a :: t => if k a ∈ t.map k then dedupKeepLastBy k t else a :: dedupKeepLastBy k t

/-- Three-way comparison on `Nat` (the comparison `pandas` applies to the
chronological keys of two timestamps). -/
def natCmp (a b : Nat) : Ordering :=
  if a < b then .lt else if b < a then .gt else .eq

/-- Comparison of one sort column holding possibly-NaT timestamps, direction
descending, NaT placed last (`sort_values(..., ascending=False)` with the
default `na_position="last"`). -/
def cmpDescNaLast : Option DT → Option DT → Ordering
  | none, none => .eq
  | none, some _ => .gt
  | some _, none => .lt
  | some a, some b => natCmp b.key a.key

/-- Same with direction ascending (`sort_values` default), NaT last. -/
def cmpAscNaLast : Option DT → Option DT → Ordering
  | none, none => .eq
  | none, some _ => .gt
  | some _, none => .lt
  | some a, some b => natCmp a.key b.key

/-- Lexicographic combination of two column comparisons. -/
def ordThen : Ordering → Ordering → Ordering
  | .eq, o2 => o2
  | o1, _ => o1

/-- Numeric encoding of one descending-with-NaT-last sort column: a present
timestamp maps to the negation of its chronological key (so later timestamps
come first), NaT maps above every present value (so it always sorts last).
`cmpDescNaLast` compares these encodings ascending; the encoding exists to
let linear arithmetic settle totality and transitivity of the row
preorders. -/
def encDesc : Option DT → Int
  | none => 1
  | some d => -(d.key : Int)

/-! ## HTML content model

What the BeautifulSoup calls deliver: a page is a list of `tr` rows, a row a
list of `td` cells, a cell its visible text plus its embedded `href` links in
document order.  `get_text(strip=True)` is modelled by `strStrip`. -/

/-- An `a` element with an `href`, as `find("a", href=True)` returns it:
visible text and link target. -/
structure Anchor where
  text : String
  href : String
deriving DecidableEq, Repr

/-- A `td` cell: visible text and embedded links in document order. -/
structure Td where
  text : String
  anchors : List Anchor
deriving DecidableEq, Repr

/-- A `tr` row: its `td` cells in document order. -/
abbrev Tr := List Td

/-- A `table` element: full rendered text (`get_text(" ", strip=True)`) and
its rows. -/
structure HtmlTable where
  full_text : String
  trs : List Tr
deriving DecidableEq, Repr

/-- Python whitespace stripped by `get_text(strip=True)`. -/
def isSpaceCh (c : Char) : Bool :=
  decide (c = ' ') || decide (c = '\t') || decide (c = '\n') || decide (c = '\r')

/-- Modelled from the library behavior of `get_text(strip=True)` /
`str.strip()`: drop leading and trailing whitespace. -/
def strStrip (s : String) : String :=
  ⟨((s.data.dropWhile isSpaceCh).reverse.dropWhile isSpaceCh).reverse⟩

/-- Does `pat` occur at the head of `l`? -/
def leadMatch : List Char → List Char → Bool
  | [], _ => true
  | _ :: _, [] => false
  | a :: p, b :: l => decide (a = b) && leadMatch p l

/-- Does `pat` occur anywhere in `l`?  (Python's `pat in text`.) -/
def hasSub (pat : List Char) : List Char → Bool
  | [] => leadMatch pat []
  | c :: t => leadMatch pat (c :: t) || hasSub pat t

/-- Python's substring test `pat in s`. -/
def strContainsSub (s pat : String) : Bool :=
  hasSub pat.data s.data

/-- Modelled from the library call `urllib.parse.urljoin(base, href)`,
restricted to the shapes this scraper meets: an absolute `href` is returned
unchanged, a relative one replaces everything after the last `/` of the
base. -/
def urljoin (base href : String) : String :=
  if strContainsSub href "://" then href
  else ⟨(base.data.reverse.dropWhile fun c => decide (c ≠ '/')).reverse ++ href.data⟩

/-! ## Script constants -/

/-- Base archive locator. -/
def BASE_URL : String := "https://lmsal.com/solarsoft/latest_events_archive.html"

/-- Inclusive cutoff year for snapshots and summary reports. -/
def MIN_YEAR : Nat := 2020

/-! ## Snapshot index builder (`fetch_snapshot_links`) -/

/-- One `(snapshot_time, snapshot_url)` entry of the index. -/
structure SnapshotLink where
  snapshot_time : String
  snapshot_url : String
deriving DecidableEq, Repr

/-- The row scan of `fetch_snapshot_links`: rows with no cell are skipped;
the first link of the first cell is taken (`tds[0].find("a", href=True)`),
rows without one are skipped; the link text is parsed with the strict
format, parse failures are skipped; a parsed year below `MIN_YEAR` stops the
scan (`break`); otherwise the entry is appended. -/
def snapshotLinkRows (base_url : String) : List Tr → List SnapshotLink
  | [] => []
  | tds :: rest =>
    match tds with
    | [] => snapshotLinkRows base_url rest
    | td0 :: _ =>
      match td0.anchors.head? with
      | none => snapshotLinkRows base_url rest
      | some a =>
        match parse_dmy_hm (strStrip a.text) with
        | none => snapshotLinkRows base_url rest
        | some snap_dt =>
          if snap_dt.year < MIN_YEAR then []
          else
            ⟨strStrip a.text, urljoin base_url a.href⟩ :: snapshotLinkRows base_url rest

/-- `fetch_snapshot_links`: `None` from `get_soup` gives `[]`, otherwise the
row scan over the page's rows. -/
def fetch_snapshot_links (base_url : String) (page : Option (List Tr)) : List SnapshotLink :=
  match page with
  | none => []
  | some trs => snapshotLinkRows base_url trs

/-- Modelled from the spec: the same scan, but locating "the first embedded
link" anywhere in the row (first link of the concatenated cells) instead of
the first link of the first cell.  Used to compare the spec's description of
the index builder with the code's behavior. -/
def snapshotLinkRowsSpec (base_url : String) : List Tr → List SnapshotLink
  | [] => []
  | tds :: rest =>
    match ((tds.map Td.anchors).flatten).head? with
    | none => snapshotLinkRowsSpec base_url rest
    | some a =>
      match parse_dmy_hm (strStrip a.text) with
      | none => snapshotLinkRowsSpec base_url rest
      | some snap_dt =>
        if snap_dt.year < MIN_YEAR then []
        else
          ⟨strStrip a.text, urljoin base_url a.href⟩ :: snapshotLinkRowsSpec base_url rest

/-- Does this index row make the scan `break`?  (Its first cell has a link
whose text parses to a year strictly below the cutoff.) -/
def rowBreaks : Tr → Bool
  | [] => false
  | td0 :: _ =>
    match td0.anchors.head? with
    | none => false
    | some a =>
      match parse_dmy_hm (strStrip a.text) with
      | none => false
      | some d => decide (d.year < MIN_YEAR)

/-! ## Snapshot event extractor (`fetch_events_from_snapshot`) -/

/-- One row of the persisted events table, all fields as written text — the
shape of both a freshly extracted event row and a row of the events CSV
loaded with `dtype=str`. -/
structure RawEvent where
  snapshot_time : String
  snapshot_url : String
  event_num : String
  ename : String
  start : String
  stop : String
  peak : String
  goes_class : String
  derived_position : String
deriving DecidableEq, Repr

/-- `find_event_table`: first table whose full rendered text contains the
three marker substrings. -/
def find_event_table (tables : List HtmlTable) : Option HtmlTable :=
  tables.find? fun t =>
    strContainsSub t.full_text "EName" && strContainsSub t.full_text "GOES Class" &&
      strContainsSub t.full_text "Derived Position"

/-- The row loop of `fetch_events_from_snapshot`: rows with fewer than 7
cells are skipped (`continue`); cells 0–6 are read positionally; rows whose
`EName` cell strips to empty are skipped; surviving rows become event
records stamped with the snapshot's time and locator. -/
def eventRows (snapshot_time snapshot_url : String) : List Tr → List RawEvent
  | [] => []
  | tr :: rest =>
    match tr with
    | c0 :: c1 :: c2 :: c3 :: c4 :: c5 :: c6 :: _ =>
      if strStrip c1.text = "" then eventRows snapshot_time snapshot_url rest
      else
        { snapshot_time := snapshot_time, snapshot_url := snapshot_url,
          event_num := strStrip c0.text, ename := strStrip c1.text,
          start := strStrip c2.text, stop := strStrip c3.text,
          peak := strStrip c4.text, goes_class := strStrip c5.text,
          derived_position := strStrip c6.text } ::
          eventRows snapshot_time snapshot_url rest
    | _ => eventRows snapshot_time snapshot_url rest

/-- `fetch_events_from_snapshot`: empty on a failed fetch or when no table
matches the content signature, else the row loop over the matched table. -/
def fetch_events_from_snapshot (snapshot_time snapshot_url : String)
    (page : Option (List HtmlTable)) : List RawEvent :=
  match page with
  | none => []
  | some tables =>
    match find_event_table tables with
    | none => []
    | some t => eventRows snapshot_time snapshot_url t.trs

/-! ## Event merge (`update_events_csv`) -/

/-- An event row of the in-memory combined frame after `update_events_csv`
has re-parsed its ordering columns: `Start`/`Stop`/`Peak` hold the
`to_datetime` results, `snapshot_time_parsed` is the helper column
`"Snapshot Time Parsed"`. -/
structure MergedEvent where
  snapshot_time : String
  snapshot_url : String
  event_num : String
  ename : String
  start : Option DT
  stop : Option DT
  peak : Option DT
  goes_class : String
  derived_position : String
  snapshot_time_parsed : Option DT
deriving DecidableEq, Repr

/-- The per-row effect of lines 293–297 of the script: parse
`"Snapshot Time"` with the strict format into the helper column and convert
`Start`/`Stop`/`Peak` with the flexible `to_datetime`. -/
def toMerged (r : RawEvent) : MergedEvent :=
  { snapshot_time := r.snapshot_time, snapshot_url := r.snapshot_url,
    event_num := r.event_num, ename := r.ename,
    start := to_datetime_flex r.start, stop := to_datetime_flex r.stop,
    peak := to_datetime_flex r.peak, goes_class := r.goes_class,
    derived_position := r.derived_position,
    snapshot_time_parsed := parse_dmy_hm r.snapshot_time }

/-- Drop the helper column and write the row out (`to_csv` renders the
datetime columns canonically, NaT as the empty field). -/
def renderEvent (m : MergedEvent) : RawEvent :=
  { snapshot_time := m.snapshot_time, snapshot_url := m.snapshot_url,
    event_num := m.event_num, ename := m.ename,
    start := renderOptDT m.start, stop := renderOptDT m.stop,
    peak := renderOptDT m.peak, goes_class := m.goes_class,
    derived_position := m.derived_position }

/-- Row preorder of
`sort_values(["Snapshot Time Parsed", "Peak"], ascending=[False, False])`:
`evLE a b` when `a` may come no later than `b`. -/
def evLE (a b : MergedEvent) : Bool :=
  match ordThen (cmpDescNaLast a.snapshot_time_parsed b.snapshot_time_parsed)
      (cmpDescNaLast a.peak b.peak) with
  | .gt => false
  | _ => true

/-- The dedup key of the events table (`subset=["EName"]`). -/
def enameKey (m : MergedEvent) : String := m.ename

/-- `peakOutranks p q`: under the descending-peak tie-break a row whose
`Peak` column parsed to `p` strictly outranks one whose column parsed to
`q` — either both are present and `p` is later, or `p` is present and `q`
is NaT. -/
def peakOutranks : Option DT → Option DT → Prop
  | some b, some a => a.key < b.key
  | some _, none => True
  | none, _ => False

instance (p q : Option DT) : Decidable (peakOutranks p q) :=
  match p, q with
  | some b, some a => inferInstanceAs (Decidable (a.key < b.key))
  | some _, none => inferInstanceAs (Decidable True)
  | none, some _ => inferInstanceAs (Decidable False)
  | none, none => inferInstanceAs (Decidable False)

/-- `combined = pd.concat([old_df, new_df]) if not old_df.empty else new_df`. -/
def eventsCombined (old_df new_df : List RawEvent) : List RawEvent :=
  if old_df = [] then new_df else old_df ++ new_df

/-- The whole persisted effect of one `update_events_csv` run, as a function
from (prior CSV rows, rows extracted this run) to (CSV rows written, reported
added count).  When nothing was extracted the function returns early before
loading or writing anything, so the disk rows pass through unchanged and no
rows are added.  Otherwise: concatenate, re-parse the ordering columns,
stable-sort by (snapshot time, peak) descending with NaT last, dedup on
`EName` keeping the first row, drop the helper column, write.  The reported
count is `max(0, len(written) - len(old_df))`, which truncated `Nat`
subtraction computes. -/
def update_events_csv (old_df new_df : List RawEvent) : List RawEvent × Nat :=
  if new_df = [] then (old_df, 0)
  else
    let combined := (eventsCombined old_df new_df).map toMerged
    let sorted := sortStable evLE combined
    let deduped := dedupKeepFirstBy enameKey sorted
    let written := deduped.map renderEvent
    (written, written.length - old_df.length)

/-! ## Summary aggregator (`fetch_archive_summary_table`, `update_summary_csv`) -/

/-- One row of the persisted summary table, all fields as written text. -/
structure SummaryCsvRow where
  report_date : String
  start_time : String
  end_time : String
  total_events : String
  largest_flare : String
  c_class : String
  m_class : String
  x_class : String
  proton_events : String
deriving DecidableEq, Repr

/-- One summary record with its `Report Date` column in parsed (datetime)
form — the shape of `fetch_archive_summary_table`'s output and of the rows of
the combined frame after `update_summary_csv` re-parses the column. -/
structure SummaryRec where
  report_date : Option DT
  start_time : String
  end_time : String
  total_events : String
  largest_flare : String
  c_class : String
  m_class : String
  x_class : String
  proton_events : String
deriving DecidableEq, Repr

/-- The row loop of `fetch_archive_summary_table`: rows with fewer than 9
cells are skipped (`continue`); otherwise the stripped texts of the first 9
cells form the row data. -/
def summaryRowsData : List Tr → List (List String)
  | [] => []
  | tr :: rest =>
    if tr.length < 9 then summaryRowsData rest
    else (tr.take 9).map (fun td => strStrip td.text) :: summaryRowsData rest

/-- Read the 9 positional fields of one extracted summary row and parse its
`Report Date` with the strict format. -/
def toSummaryRec (row : List String) : SummaryRec :=
  { report_date := parse_dmy_hm (row.getD 0 ""), start_time := row.getD 1 "",
    end_time := row.getD 2 "", total_events := row.getD 3 "",
    largest_flare := row.getD 4 "", c_class := row.getD 5 "",
    m_class := row.getD 6 "", x_class := row.getD 7 "",
    proton_events := row.getD 8 "" }

/-- Row preorder of the ascending `sort_values("Report Date")`. -/
def sAscLE (a b : SummaryRec) : Bool :=
  match cmpAscNaLast a.report_date b.report_date with
  | .gt => false
  | _ => true

/-- Row preorder of `sort_values("Report Date", ascending=False)`. -/
def sDescLE (a b : SummaryRec) : Bool :=
  match cmpDescNaLast a.report_date b.report_date with
  | .gt => false
  | _ => true

/-- The dedup key of the summary table (`subset=["Report Date"]`; `pandas`
treats NaT values as duplicates of each other, which `Option DT` equality
reproduces). -/
def sdKey (r : SummaryRec) : Option DT := r.report_date

/-- `fetch_archive_summary_table`: empty on a failed fetch; otherwise read
every row with at least 9 cells, parse `Report Date` strictly, keep rows
whose parsed year is at least the cutoff (a NaT date fails the comparison and
is dropped), and sort ascending by report date. -/
def fetch_archive_summary_table (page : Option (List Tr)) : List SummaryRec :=
  match page with
  | none => []
  | some trs =>
    let kept := ((summaryRowsData trs).map toSummaryRec).filter fun r =>
      match r.report_date with
      | some d => decide (MIN_YEAR ≤ d.year)
      | none => false
    sortStable sAscLE kept

/-- The per-row effect of `pd.to_datetime(combined["Report Date"],
errors="coerce")` on a row loaded from the prior CSV (string-typed). -/
def summaryFromCsv (r : SummaryCsvRow) : SummaryRec :=
  { report_date := to_datetime_flex r.report_date, start_time := r.start_time,
    end_time := r.end_time, total_events := r.total_events,
    largest_flare := r.largest_flare, c_class := r.c_class,
    m_class := r.m_class, x_class := r.x_class,
    proton_events := r.proton_events }

/-- Write one summary row out (`to_csv` renders the datetime column
canonically, NaT as the empty field). -/
def renderSummary (m : SummaryRec) : SummaryCsvRow :=
  { report_date := renderOptDT m.report_date, start_time := m.start_time,
    end_time := m.end_time, total_events := m.total_events,
    largest_flare := m.largest_flare, c_class := m.c_class,
    m_class := m.m_class, x_class := m.x_class,
    proton_events := m.proton_events }

/-- The combined summary working set: prior rows (re-parsed, a `to_datetime`
on an already-datetime cell of the fresh extraction is the identity) followed
by the fresh rows; the fresh table alone when the prior is empty. -/
def summaryCombined (old_df : List SummaryCsvRow) (new_df : List SummaryRec) : List SummaryRec :=
  if old_df = [] then new_df else old_df.map summaryFromCsv ++ new_df

/-- The whole persisted effect of one `update_summary_csv` run, analogous to
`update_events_csv`: early return leaving the disk untouched when the fresh
extraction is empty; otherwise concatenate, re-parse `Report Date`, dedup on
it keeping the last row, sort descending by it with NaT last, write.  The
reported count is `max(0, len(written) - len(old_df))`. -/
def update_summary_csv (old_df : List SummaryCsvRow) (new_df : List SummaryRec) :
    List SummaryCsvRow × Nat :=
  if new_df = [] then (old_df, 0)
  else
    let combined := summaryCombined old_df new_df
    let deduped := dedupKeepLastBy sdKey combined
    let sorted := sortStable sDescLE deduped
    (sorted.map renderSummary, sorted.length - old_df.length)

/-! ## Query mode (`query_events_csv`) -/

/-- One row of the events CSV as `pd.read_csv(..., dtype=str)` loads it for
query mode: a missing cell (empty field) loads as NA, modelled by `none`. -/
structure LoadedEventRow where
  snapshot_time : Option String
  snapshot_url : Option String
  event_num : Option String
  ename : Option String
  start : Option String
  stop : Option String
  peak : Option String
  goes_class : Option String
  derived_position : Option String
deriving DecidableEq, Repr

/-- `df["GOES Class"].str.startswith("X", na=False)`: NA is `False`, a
present value is tested for the leading character. -/
def startsWithX : Option String → Bool
  | none => false
  | some s =>
    match s.data with
    | [] => false
    | c :: _ => decide (c = 'X')

/-- The rows query mode prints as X-class events: the filter by
`startswith("X", na=False)` followed by `head(20)`. -/
def query_events_csv (df : List LoadedEventRow) : List LoadedEventRow :=
  (df.filter fun r => startsWithX r.goes_class).take 20

/-! ## Parser lemmas: every parsed date-time is in range, and the canonical
rendering of a parsed value re-parses to itself. -/

theorem digit?_digitChar {n : Nat} (h : n < 10) : digit? (Nat.digitChar n) = some n := by
  interval_cases n <;> rfl

theorem digit?_digitChar_mod (x : Nat) : digit? (Nat.digitChar (x % 10)) = some (x % 10) :=
  digit?_digitChar (Nat.mod_lt x (by omega))

theorem mkDT?_wf {y mo dd hh mi se : Nat} {d : DT} (h : mkDT? y mo dd hh mi se = some d) :
    d.wf := by
  simp only [mkDT?] at h
  split at h
  · injection h with h
    subst h
    assumption
  · exact Option.noConfusion h

theorem parse_ymd_hms_wf {s : String} {d : DT} (h : parse_ymd_hms s = some d) : d.wf := by
  unfold parse_ymd_hms parse_ymd_hms_chars at h
  split at h
  · split at h
    · split at h
      · exact mkDT?_wf h
      · exact Option.noConfusion h
    · exact Option.noConfusion h
  · exact Option.noConfusion h

theorem parse_dmy_hm_wf {s : String} {d : DT} (h : parse_dmy_hm s = some d) : d.wf := by
  unfold parse_dmy_hm parse_dmy_hm_chars at h
  split at h
  · split at h
    · split at h
      · exact mkDT?_wf h
      · exact Option.noConfusion h
    · exact Option.noConfusion h
  · exact Option.noConfusion h

theorem to_datetime_flex_wf {s : String} {d : DT} (h : to_datetime_flex s = some d) : d.wf := by
  unfold to_datetime_flex at h
  split at h
  · next heq =>
    injection h with h
    subst h
    exact parse_ymd_hms_wf heq
  · exact parse_dmy_hm_wf h

theorem parse_ymd_hms_renderDT {d : DT} (hw : d.wf) : parse_ymd_hms (renderDT d) = some d := by
  obtain ⟨h1, h2, h3, h4, h5, h6, h7, h8⟩ := hw
  have hy : (((d.year / 1000 % 10) * 10 + d.year / 100 % 10) * 10 + d.year / 10 % 10) * 10
      + d.year % 10 = d.year := by omega
  have hmo : (d.month / 10 % 10) * 10 + d.month % 10 = d.month := by omega
  have hdd : (d.day / 10 % 10) * 10 + d.day % 10 = d.day := by omega
  have hhh : (d.hour / 10 % 10) * 10 + d.hour % 10 = d.hour := by omega
  have hmi : (d.minute / 10 % 10) * 10 + d.minute % 10 = d.minute := by omega
  have hse : (d.second / 10 % 10) * 10 + d.second % 10 = d.second := by omega
  show parse_ymd_hms_chars (renderDT d).data = some d
  simp only [renderDT]
  simp only [parse_ymd_hms_chars, digit?_digitChar_mod]
  rw [if_pos ⟨trivial, trivial, trivial, trivial, trivial⟩]
  rw [hy, hmo, hdd, hhh, hmi, hse]
  simp only [mkDT?]
  exact if_pos ⟨h1, h2, h3, h4, h5, h6, h7, h8⟩

theorem to_datetime_flex_renderOptDT {s : String} :
    to_datetime_flex (renderOptDT (to_datetime_flex s)) = to_datetime_flex s := by
  cases h : to_datetime_flex s with
  | none => rfl
  | some d =>
    have hw : d.wf := to_datetime_flex_wf h
    show to_datetime_flex (renderDT d) = some d
    unfold to_datetime_flex
    rw [parse_ymd_hms_renderDT hw]

/-! ## Generic lemmas about the stable sort -/

theorem insertSorted_perm {α : Type} (le : α → α → Bool) (a : α) (l : List α) :
    List.Perm (insertSorted le a l) (a :: l) := by
  induction l with
  | nil => exact List.Perm.refl _
  | cons b t ih =>
    simp only [insertSorted]
    split
    · exact List.Perm.refl _
    · exact (ih.cons b).trans (List.Perm.swap a b t)

theorem sortStable_perm {α : Type} (le : α → α → Bool) (l : List α) :
    List.Perm (sortStable le l) l := by
  induction l with
  | nil => exact List.Perm.refl _
  | cons a t ih => exact (insertSorted_perm le a (sortStable le t)).trans (ih.cons a)

theorem pairwise_insertSorted {α : Type} (le : α → α → Bool)
    (htot : ∀ a b, le a b = true ∨ le b a = true)
    (htr : ∀ a b c, le a b = true → le b c = true → le a c = true)
    (a : α) {l : List α} (hl : l.Pairwise fun x y => le x y = true) :
    (insertSorted le a l).Pairwise fun x y => le x y = true := by
  induction l with
  | nil => simp [insertSorted]
  | cons b t ih =>
    rw [List.pairwise_cons] at hl
    obtain ⟨hb, ht⟩ := hl
    simp only [insertSorted]
    split
    · next hab =>
      rw [List.pairwise_cons]
      refine ⟨?_, List.pairwise_cons.mpr ⟨hb, ht⟩⟩
      intro x hx
      rcases List.mem_cons.mp hx with rfl | hx
      · exact hab
      · exact htr a b x hab (hb x hx)
    · next hab =>
      have hba : le b a = true := (htot a b).resolve_left hab
      rw [List.pairwise_cons]
      refine ⟨?_, ih ht⟩
      intro x hx
      rcases List.mem_cons.mp (((insertSorted_perm le a t).mem_iff).mp hx) with rfl | hx
      · exact hba
      · exact hb x hx

theorem sortStable_pairwise {α : Type} (le : α → α → Bool)
    (htot : ∀ a b, le a b = true ∨ le b a = true)
    (htr : ∀ a b c, le a b = true → le b c = true → le a c = true)
    (l : List α) : (sortStable le l).Pairwise fun x y => le x y = true := by
  induction l with
  | nil => exact List.Pairwise.nil
  | cons a t ih => exact pairwise_insertSorted le htot htr a ih

theorem sortStable_of_pairwise {α : Type} (le : α → α → Bool) {l : List α}
    (hl : l.Pairwise fun x y => le x y = true) : sortStable le l = l := by
  induction l with
  | nil => rfl
  | cons a t ih =>
    rw [List.pairwise_cons] at hl
    obtain ⟨ha, ht⟩ := hl
    show insertSorted le a (sortStable le t) = a :: t
    rw [ih ht]
    cases t with
    | nil => rfl
    | cons b t' =>
      simp only [insertSorted]
      rw [if_pos (ha b (by simp))]

theorem insertSorted_insertLast_comm {α : Type} (le : α → α → Bool)
    (htot : ∀ a b, le a b = true ∨ le b a = true)
    (htr : ∀ a b c, le a b = true → le b c = true → le a c = true)
    (a n : α) (s : List α) :
    insertSorted le a (insertLast le n s) = insertLast le n (insertSorted le a s) := by
  induction s with
  | nil =>
    show insertSorted le a [n] = insertLast le n [a]
    simp only [insertSorted, insertLast]
  | cons b t ih =>
    cases hbn : le b n with
    | true =>
      cases hab : le a b with
      | true =>
        have han : le a n = true := htr a b n hab hbn
        simp [insertSorted, insertLast, hbn, hab, han]
      | false =>
        simp [insertSorted, insertLast, hbn, hab, ih]
    | false =>
      cases hab : le a b with
      | true =>
        cases han : le a n with
        | true => simp [insertSorted, insertLast, hbn, hab, han]
        | false => simp [insertSorted, insertLast, hbn, hab, han]
      | false =>
        have hba : le b a = true := (htot a b).resolve_left (by simp [hab])
        have han : le a n = false := by
          cases h : le a n with
          | false => rfl
          | true => exact absurd (htr b a n hba h) (by simp [hbn])
        simp [insertSorted, insertLast, hbn, hab, han]

theorem foldr_insertSorted_insertLast {α : Type} (le : α → α → Bool)
    (htot : ∀ a b, le a b = true ∨ le b a = true)
    (htr : ∀ a b c, le a b = true → le b c = true → le a c = true)
    (n : α) (l s : List α) :
    l.foldr (insertSorted le) (insertLast le n s) = insertLast le n (l.foldr (insertSorted le) s) := by
  induction l with
  | nil => rfl
  | cons a l ih =>
    show insertSorted le a (l.foldr (insertSorted le) (insertLast le n s)) = _
    rw [ih, insertSorted_insertLast_comm le htot htr]
    rfl

theorem sortStable_append_singleton {α : Type} (le : α → α → Bool)
    (htot : ∀ a b, le a b = true ∨ le b a = true)
    (htr : ∀ a b c, le a b = true → le b c = true → le a c = true)
    (l : List α) (n : α) :
    sortStable le (l ++ [n]) = insertLast le n (sortStable le l) := by
  unfold sortStable
  rw [List.foldr_append]
  exact foldr_insertSorted_insertLast le htot htr n l []

theorem insertSorted_split {α : Type} (le : α → α → Bool)
    (htr : ∀ a b c, le a b = true → le b c = true → le a c = true)
    (a : α) {s : List α} (hs : s.Pairwise fun x y => le x y = true) :
    ∃ A B, insertSorted le a s = A ++ a :: B ∧ s = A ++ B ∧
      (∀ x ∈ A, le a x = false) ∧ (∀ y ∈ B, le a y = true) := by
  induction s with
  | nil => exact ⟨[], [], rfl, rfl, by simp, by simp⟩
  | cons b t ih =>
    rw [List.pairwise_cons] at hs
    obtain ⟨hb, ht⟩ := hs
    by_cases hab : le a b = true
    · refine ⟨[], b :: t, ?_, rfl, by simp, ?_⟩
      · simp [insertSorted, hab]
      · intro y hy
        rcases List.mem_cons.mp hy with rfl | hy
        · exact hab
        · exact htr a b y hab (hb y hy)
    · obtain ⟨A, B, h1, h2, h3, h4⟩ := ih ht
      refine ⟨b :: A, B, ?_, by rw [List.cons_append, h2], ?_, h4⟩
      · simp only [insertSorted]
        rw [if_neg hab, h1]
        rfl
      · intro x hx
        rcases List.mem_cons.mp hx with rfl | hx
        · exact Bool.not_eq_true _ ▸ eq_false_of_ne_true hab
        · exact h3 x hx

theorem insertLast_split {α : Type} (le : α → α → Bool)
    (htr : ∀ a b c, le a b = true → le b c = true → le a c = true)
    (n : α) {s : List α} (hs : s.Pairwise fun x y => le x y = true) :
    ∃ A B, insertLast le n s = A ++ n :: B ∧ s = A ++ B ∧
      (∀ x ∈ A, le x n = true) ∧ (∀ y ∈ B, le y n = false) := by
  induction s with
  | nil => exact ⟨[], [], rfl, rfl, by simp, by simp⟩
  | cons b t ih =>
    rw [List.pairwise_cons] at hs
    obtain ⟨hb, ht⟩ := hs
    by_cases hbn : le b n = true
    · obtain ⟨A, B, h1, h2, h3, h4⟩ := ih ht
      refine ⟨b :: A, B, ?_, by rw [List.cons_append, h2], ?_, h4⟩
      · simp only [insertLast]
        rw [if_pos hbn, h1]
        rfl
      · intro x hx
        rcases List.mem_cons.mp hx with rfl | hx
        · exact hbn
        · exact h3 x hx
    · refine ⟨[], b :: t, ?_, rfl, by simp, ?_⟩
      · simp only [insertLast]
        rw [if_neg hbn]
        rfl
      · intro y hy
        rcases List.mem_cons.mp hy with rfl | hy
        · exact eq_false_of_ne_true hbn
        · cases hyn : le y n with
          | false => rfl
          | true => exact absurd (htr b y n (hb y hy) hyn) hbn

/-! ## Generic lemmas about the two dedup passes -/

theorem dedupFirstAux_congr {α κ : Type} [DecidableEq κ] (k : α → κ) :
    ∀ (f1 : Nat) {f2 : Nat} {l : List α}, l.length ≤ f1 → l.length ≤ f2 →
      dedupFirstAux k f1 l = dedupFirstAux k f2 l := by
  intro f1
  induction f1 with
  | zero =>
    intro f2 l h1 _
    cases l with
    | nil => cases f2 <;> rfl
    | cons a t => simp at h1
  | succ m ih =>
    intro f2 l h1 h2
    cases l with
    | nil => cases f2 <;> rfl
    | cons a t =>
      cases f2 with
      | zero => simp at h2
      | succ m2 =>
        show a :: dedupFirstAux k m (t.filter _) = a :: dedupFirstAux k m2 (t.filter _)
        have hf := List.length_filter_le (fun x => decide (k x ≠ k a)) t
        rw [ih (Nat.le_trans hf (Nat.le_of_succ_le_succ h1))
          (Nat.le_trans hf (Nat.le_of_succ_le_succ h2))]

theorem dedupKeepFirstBy_cons {α κ : Type} [DecidableEq κ] (k : α → κ) (a : α) (t : List α) :
    dedupKeepFirstBy k (a :: t) =
      a :: dedupKeepFirstBy k (t.filter fun x => decide (k x ≠ k a)) := by
  show a :: dedupFirstAux k t.length (t.filter _) = _
  unfold dedupKeepFirstBy
  rw [dedupFirstAux_congr k t.length (List.length_filter_le _ _) (Nat.le_refl _)]

theorem dedupF_sublist {α κ : Type} [DecidableEq κ] (k : α → κ) (l : List α) :
    List.Sublist (dedupKeepFirstBy k l) l := by
  generalize hn : l.length = n
  induction n using Nat.strong_induction_on generalizing l with
  | _ n ih =>
    cases l with
    | nil => exact List.Sublist.refl _
    | cons a t =>
      rw [dedupKeepFirstBy_cons]
      refine List.Sublist.cons₂ a ?_
      have hlt : (t.filter fun x => decide (k x ≠ k a)).length < n := by
        rw [← hn]
        exact Nat.lt_succ_of_le (List.length_filter_le _ _)
      exact (ih _ hlt _ rfl).trans (List.filter_sublist t)

theorem dedupF_keys_nodup {α κ : Type} [DecidableEq κ] (k : α → κ) (l : List α) :
    (dedupKeepFirstBy k l).Pairwise fun x y => k x ≠ k y := by
  generalize hn : l.length = n
  induction n using Nat.strong_induction_on generalizing l with
  | _ n ih =>
    cases l with
    | nil => exact List.Pairwise.nil
    | cons a t =>
      rw [dedupKeepFirstBy_cons, List.pairwise_cons]
      have hlt : (t.filter fun x => decide (k x ≠ k a)).length < n := by
        rw [← hn]
        exact Nat.lt_succ_of_le (List.length_filter_le _ _)
      refine ⟨?_, ih _ hlt _ rfl⟩
      intro y hy
      have hy' := (dedupF_sublist k _).subset hy
      have := (List.mem_filter.mp hy').2
      simp only [decide_eq_true_eq] at this
      exact fun h => this h.symm

theorem dedupF_of_keys_nodup {α κ : Type} [DecidableEq κ] (k : α → κ) {l : List α}
    (h : l.Pairwise fun x y => k x ≠ k y) : dedupKeepFirstBy k l = l := by
  generalize hn : l.length = n
  induction n using Nat.strong_induction_on generalizing l with
  | _ n ih =>
    cases l with
    | nil => rfl
    | cons a t =>
      rw [List.pairwise_cons] at h
      obtain ⟨ha, ht⟩ := h
      rw [dedupKeepFirstBy_cons]
      have hfl : t.filter (fun x => decide (k x ≠ k a)) = t := by
        rw [List.filter_eq_self]
        intro x hx
        simp only [decide_eq_true_eq]
        exact fun hh => (ha x hx) hh.symm
      rw [hfl, ih t.length (by rw [List.length_cons] at hn; omega) ht rfl]

theorem dedupF_middle {α κ : Type} [DecidableEq κ] (k : α → κ) (x : α) (A B : List α)
    (hd : ∃ d ∈ A, k d = k x) :
    dedupKeepFirstBy k (A ++ x :: B) = dedupKeepFirstBy k (A ++ B) := by
  generalize hn : A.length = n
  induction n using Nat.strong_induction_on generalizing A B with
  | _ n ih =>
    cases A with
    | nil =>
      obtain ⟨d, hd', _⟩ := hd
      simp at hd'
    | cons a A' =>
      rw [List.cons_append, List.cons_append, dedupKeepFirstBy_cons, dedupKeepFirstBy_cons]
      congr 1
      rw [List.filter_append, List.filter_append, List.filter_cons]
      by_cases hxa : k x = k a
      · rw [if_neg (by simp [hxa])]
      · rw [if_pos (by simp [hxa])]
        obtain ⟨d, hdA, hdk⟩ := hd
        rcases List.mem_cons.mp hdA with rfl | hdA'
        · exact absurd (hdk.symm.trans rfl) (fun h => hxa (hdk ▸ rfl))
        · have hdf : d ∈ A'.filter fun y => decide (k y ≠ k a) := by
            rw [List.mem_filter]
            refine ⟨hdA', by simp [hdk]; exact fun h => hxa (hdk.symm ▸ h)⟩
          have hlt : (A'.filter fun y => decide (k y ≠ k a)).length < n := by
            rw [← hn]
            exact Nat.lt_succ_of_le (List.length_filter_le _ _)
          exact ih _ hlt _ _ ⟨d, hdf, hdk⟩ rfl

theorem getLast?_cons_ne {α : Type} (a : α) {l : List α} (h : l ≠ []) :
    (a :: l).getLast? = l.getLast? := by
  cases l with
  | nil => exact absurd rfl h
  | cons b t => exact List.getLast?_cons_cons

theorem dedupL_subset {α κ : Type} [DecidableEq κ] (k : α → κ) (l : List α) :
    ∀ x ∈ dedupKeepLastBy k l, x ∈ l := by
  induction l with
  | nil => intro x hx; exact absurd hx (by simp [dedupKeepLastBy])
  | cons a t ih =>
    intro x hx
    simp only [dedupKeepLastBy] at hx
    split at hx
    · exact List.mem_cons_of_mem a (ih x hx)
    · rcases List.mem_cons.mp hx with rfl | hx'
      · exact List.mem_cons_self x t
      · exact List.mem_cons_of_mem a (ih x hx')

theorem dedupL_filter_key {α κ : Type} [DecidableEq κ] (k : α → κ) (c : κ) (l : List α) :
    (dedupKeepLastBy k l).filter (fun x => decide (k x = c)) =
      ((l.filter fun x => decide (k x = c)).getLast?).toList := by
  induction l with
  | nil => rfl
  | cons a t ih =>
    simp only [dedupKeepLastBy]
    rw [List.filter_cons]
    by_cases hmem : k a ∈ t.map k
    · rw [if_pos hmem]
      by_cases hc : k a = c
      · rw [if_pos (by simp [hc])]
        obtain ⟨y, hy, hky⟩ := List.mem_map.mp hmem
        have hne : t.filter (fun x => decide (k x = c)) ≠ [] := by
          intro h0
          rw [List.filter_eq_nil_iff] at h0
          exact h0 y hy (by simp [hky, hc])
        rw [getLast?_cons_ne a hne]
        exact ih
      · rw [if_neg (by simp [hc])]
        exact ih
    · rw [if_neg hmem, List.filter_cons]
      by_cases hc : k a = c
      · rw [if_pos (by simp [hc]), if_pos (by simp [hc])]
        have hnil : t.filter (fun x => decide (k x = c)) = [] := by
          rw [List.filter_eq_nil_iff]
          intro y hy hky
          simp only [decide_eq_true_eq] at hky
          exact hmem (List.mem_map.mpr ⟨y, hy, by rw [hky, hc]⟩)
        have hnil2 : (dedupKeepLastBy k t).filter (fun x => decide (k x = c)) = [] := by
          rw [ih, hnil]
          rfl
        rw [hnil2, hnil]
        rfl
      · rw [if_neg (by simp [hc]), if_neg (by simp [hc])]
        exact ih

theorem dedupL_middle {α κ : Type} [DecidableEq κ] (k : α → κ) (x : α) (A B : List α)
    (h : ∃ y ∈ B, k y = k x) :
    dedupKeepLastBy k (A ++ x :: B) = dedupKeepLastBy k (A ++ B) := by
  induction A with
  | nil =>
    obtain ⟨y, hy, hky⟩ := h
    show dedupKeepLastBy k (x :: B) = dedupKeepLastBy k B
    simp only [dedupKeepLastBy]
    rw [if_pos (List.mem_map.mpr ⟨y, hy, hky⟩)]
  | cons a A' ih =>
    show dedupKeepLastBy k (a :: (A' ++ x :: B)) = dedupKeepLastBy k (a :: (A' ++ B))
    have hcond : (k a ∈ (A' ++ x :: B).map k) ↔ (k a ∈ (A' ++ B).map k) := by
      simp only [List.map_append, List.map_cons, List.mem_append, List.mem_cons]
      constructor
      · rintro (h1 | h1 | h1)
        · exact Or.inl h1
        · obtain ⟨y, hy, hky⟩ := h
          exact Or.inr (List.mem_map.mpr ⟨y, hy, by rw [hky, ← h1]⟩)
        · exact Or.inr h1
      · rintro (h1 | h1)
        · exact Or.inl h1
        · exact Or.inr (Or.inr h1)
    simp only [dedupKeepLastBy]
    by_cases hcA : k a ∈ (A' ++ x :: B).map k
    · rw [if_pos hcA, if_pos (hcond.mp hcA)]
      exact ih
    · rw [if_neg hcA, if_neg (fun hh => hcA (hcond.mpr hh))]
      rw [ih]

theorem dedupL_fresh {α κ : Type} [DecidableEq κ] (k : α → κ) (a : α) (A B : List α)
    (hA : k a ∉ A.map k) (hB : k a ∉ B.map k) :
    ∃ A', dedupKeepLastBy k (A ++ a :: B) = A' ++ a :: dedupKeepLastBy k B ∧
      dedupKeepLastBy k (A ++ B) = A' ++ dedupKeepLastBy k B ∧ ∀ x ∈ A', x ∈ A := by
  induction A with
  | nil =>
    refine ⟨[], ?_, rfl, by simp⟩
    show dedupKeepLastBy k (a :: B) = [] ++ a :: dedupKeepLastBy k B
    simp only [dedupKeepLastBy]
    rw [if_neg hB]
    rfl
  | cons c A' ih =>
    have hA' : k a ∉ A'.map k := fun h => hA (by simp [h])
    have hca : ¬ k c = k a := fun h => hA (by simp [h])
    obtain ⟨A'', h1, h2, h3⟩ := ih hA'
    have hcond : (k c ∈ (A' ++ a :: B).map k) ↔ (k c ∈ (A' ++ B).map k) := by
      simp only [List.map_append, List.map_cons, List.mem_append, List.mem_cons]
      constructor
      · rintro (h1 | h1 | h1)
        · exact Or.inl h1
        · exact absurd h1 hca
        · exact Or.inr h1
      · rintro (h1 | h1)
        · exact Or.inl h1
        · exact Or.inr (Or.inr h1)
    by_cases hcm : k c ∈ (A' ++ a :: B).map k
    · refine ⟨A'', ?_, ?_, fun x hx => List.mem_cons_of_mem c (h3 x hx)⟩
      · show dedupKeepLastBy k (c :: (A' ++ a :: B)) = _
        simp only [dedupKeepLastBy]
        rw [if_pos hcm]
        exact h1
      · show dedupKeepLastBy k (c :: (A' ++ B)) = _
        simp only [dedupKeepLastBy]
        rw [if_pos (hcond.mp hcm)]
        exact h2
    · refine ⟨c :: A'', ?_, ?_, ?_⟩
      · show dedupKeepLastBy k (c :: (A' ++ a :: B)) = _
        simp only [dedupKeepLastBy]
        rw [if_neg hcm, h1]
        rfl
      · show dedupKeepLastBy k (c :: (A' ++ B)) = _
        simp only [dedupKeepLastBy]
        rw [if_neg (fun hh => hcm (hcond.mpr hh)), h2]
        rfl
      · intro x hx
        rcases List.mem_cons.mp hx with rfl | hx'
        · exact List.mem_cons_self x A'
        · exact List.mem_cons_of_mem c (h3 x hx')

theorem insertSorted_between {α : Type} (le : α → α → Bool) (a : α) (A B : List α)
    (hA : ∀ x ∈ A, le a x = false) (hB : ∀ y ∈ B, le a y = true) :
    insertSorted le a (A ++ B) = A ++ a :: B := by
  induction A with
  | nil =>
    cases B with
    | nil => rfl
    | cons b t =>
      show insertSorted le a (b :: t) = a :: b :: t
      simp only [insertSorted]
      rw [if_pos (hB b (by simp))]
  | cons x A' ih =>
    show insertSorted le a (x :: (A' ++ B)) = x :: (A' ++ a :: B)
    simp only [insertSorted]
    rw [if_neg (by simp [hA x (by simp)])]
    rw [ih (fun y hy => hA y (by simp [hy]))]

/-- The keep-last dedup commutes with the stable descending sort when ties of
the sort key imply equal dedup keys do not matter — precisely, when equal
dedup keys imply a two-sided tie of the sort preorder (the summary path sorts
by the very column it dedups on).  This is the extensional content of the
spec's "sort descending, then keep-last" description of the summary pass. -/
theorem sort_dedupL_comm {α κ : Type} [DecidableEq κ] (le : α → α → Bool) (k : α → κ)
    (htot : ∀ a b, le a b = true ∨ le b a = true)
    (htr : ∀ a b c, le a b = true → le b c = true → le a c = true)
    (hkey : ∀ a b, k a = k b → le a b = true)
    (l : List α) :
    sortStable le (dedupKeepLastBy k l) = dedupKeepLastBy k (sortStable le l) := by
  induction l with
  | nil => rfl
  | cons a t ih =>
    obtain ⟨A, B, h1, h2, h3, h4⟩ :=
      insertSorted_split le htr a (sortStable_pairwise le htot htr t)
    have hmap : (k a ∈ (A ++ B).map k) ↔ (k a ∈ t.map k) := by
      rw [← h2]
      exact ((sortStable_perm le t).map k).mem_iff
    by_cases hmem : k a ∈ t.map k
    · have hx : ∃ y ∈ B, k y = k a := by
        obtain ⟨x, hx, hkx⟩ := List.mem_map.mp hmem
        have hxs : x ∈ A ++ B := by
          rw [← h2]
          exact ((sortStable_perm le t).mem_iff).mpr hx
        rcases List.mem_append.mp hxs with hxA | hxB
        · exact absurd (hkey a x hkx.symm) (by simp [h3 x hxA])
        · exact ⟨x, hxB, hkx⟩
      show sortStable le (dedupKeepLastBy k (a :: t)) =
        dedupKeepLastBy k (insertSorted le a (sortStable le t))
      rw [h1, dedupL_middle k a A B hx, ← h2]
      simp only [dedupKeepLastBy]
      rw [if_pos hmem]
      exact ih
    · have hAm : k a ∉ A.map k := fun h =>
        hmem (hmap.mp (by rw [List.map_append]; exact List.mem_append.mpr (Or.inl h)))
      have hBm : k a ∉ B.map k := fun h =>
        hmem (hmap.mp (by rw [List.map_append]; exact List.mem_append.mpr (Or.inr h)))
      obtain ⟨A', hA'1, hA'2, hA'sub⟩ := dedupL_fresh k a A B hAm hBm
      show sortStable le (dedupKeepLastBy k (a :: t)) =
        dedupKeepLastBy k (insertSorted le a (sortStable le t))
      rw [h1, hA'1]
      simp only [dedupKeepLastBy]
      rw [if_neg hmem]
      show insertSorted le a (sortStable le (dedupKeepLastBy k t)) = _
      rw [ih, h2, hA'2]
      exact insertSorted_between le a A' (dedupKeepLastBy k B)
        (fun x hx => h3 x (hA'sub x hx))
        (fun y hy => h4 y (dedupL_subset k B y hy))

theorem dedupF_filter_key {α κ : Type} [DecidableEq κ] (k : α → κ) (c : κ) (l : List α) :
    (dedupKeepFirstBy k l).filter (fun x => decide (k x = c)) =
      (l.filter (fun x => decide (k x = c))).take 1 := by
  generalize hn : l.length = n
  induction n using Nat.strong_induction_on generalizing l with
  | _ n ih =>
    cases l with
    | nil => rfl
    | cons a t =>
      rw [dedupKeepFirstBy_cons, List.filter_cons, List.filter_cons]
      by_cases hc : k a = c
      · rw [if_pos (by simp [hc]), if_pos (by simp [hc])]
        have hnil2 : (t.filter fun x => decide (k x ≠ k a)).filter
            (fun x => decide (k x = c)) = [] := by
          rw [List.filter_eq_nil_iff]
          intro y hy hyc
          have hya := (List.mem_filter.mp hy).2
          simp only [decide_eq_true_eq] at hya hyc
          exact hya (hyc.trans hc.symm)
        have hsub := (dedupF_sublist k (t.filter fun x => decide (k x ≠ k a))).filter
          (fun x => decide (k x = c))
        rw [hnil2] at hsub
        rw [List.sublist_nil.mp hsub]
        rfl
      · rw [if_neg (by simp [hc]), if_neg (by simp [hc])]
        have hlt : (t.filter fun x => decide (k x ≠ k a)).length < n := by
          rw [← hn]
          exact Nat.lt_succ_of_le (List.length_filter_le _ _)
        rw [ih _ hlt _ rfl]
        congr 1
        rw [List.filter_filter]
        apply List.filter_congr
        intro x hx
        by_cases hxc : k x = c
        · have hxa : k x ≠ k a := fun h => hc (h.symm.trans hxc)
          have hca : ¬ c = k a := fun h => hc h.symm
          simp [hxc, hxa, hca]
        · simp [hxc]

/-- After a stable sort, a run of already-sorted, key-distinct rows placed
first in the input absorbs any later rows each of which some run row
dominates (same key, sorts no later): the keep-first dedup returns exactly
the run.  This is the engine fact behind idempotence of the event merge. -/
theorem dedupF_sorted_absorb {α κ : Type} [DecidableEq κ] (le : α → α → Bool) (k : α → κ)
    (htot : ∀ a b, le a b = true ∨ le b a = true)
    (htr : ∀ a b c, le a b = true → le b c = true → le a c = true)
    {D : List α} (hD : D.Pairwise fun x y => le x y = true)
    (hDk : D.Pairwise fun x y => k x ≠ k y) :
    ∀ N : List α, (∀ n ∈ N, ∃ d ∈ D, k d = k n ∧ le d n = true) →
      dedupKeepFirstBy k (sortStable le (D ++ N)) = D := by
  intro N
  induction N using List.reverseRecOn with
  | nil =>
    intro _
    rw [List.append_nil, sortStable_of_pairwise le hD, dedupF_of_keys_nodup k hDk]
  | append_singleton N' n ih =>
    intro hdom
    rw [← List.append_assoc, sortStable_append_singleton le htot htr]
    obtain ⟨A, B, h1, h2, h3, h4⟩ :=
      insertLast_split le htr n (sortStable_pairwise le htot htr (D ++ N'))
    obtain ⟨d, hdD, hdk, hdle⟩ := hdom n (by simp)
    have hdAB : d ∈ A ++ B := by
      rw [← h2]
      exact ((sortStable_perm le (D ++ N')).mem_iff).mpr (List.mem_append.mpr (Or.inl hdD))
    have hdA : d ∈ A := by
      rcases List.mem_append.mp hdAB with h | h
      · exact h
      · exact absurd hdle (by simp [h4 d h])
    rw [h1, dedupF_middle k n A B ⟨d, hdA, hdk⟩, ← h2]
    exact ih (fun m hm => hdom m (by simp [hm]))

/-! ## The row preorders are total, transitive preorders -/

theorem cmpDescNaLast_lt_iff (x y : Option DT) :
    cmpDescNaLast x y = .lt ↔ encDesc x < encDesc y := by
  cases x with
  | none =>
    cases y with
    | none => exact iff_of_false (by simp [cmpDescNaLast]) (by simp [encDesc])
    | some b => exact iff_of_false (by simp [cmpDescNaLast]) (by simp only [encDesc]; omega)
  | some a =>
    cases y with
    | none => exact iff_of_true rfl (by simp only [encDesc]; omega)
    | some b =>
      show natCmp b.key a.key = .lt ↔ -(a.key : Int) < -(b.key : Int)
      unfold natCmp
      split
      · next h => exact iff_of_true rfl (by omega)
      · next h =>
        split
        · next h2 => exact iff_of_false (by decide) (by omega)
        · next h2 => exact iff_of_false (by decide) (by omega)

theorem cmpDescNaLast_eq_iff (x y : Option DT) :
    cmpDescNaLast x y = .eq ↔ encDesc x = encDesc y := by
  cases x with
  | none =>
    cases y with
    | none => exact iff_of_true rfl rfl
    | some b => exact iff_of_false (by simp [cmpDescNaLast]) (by simp only [encDesc]; omega)
  | some a =>
    cases y with
    | none => exact iff_of_false (by simp [cmpDescNaLast]) (by simp only [encDesc]; omega)
    | some b =>
      show natCmp b.key a.key = .eq ↔ -(a.key : Int) = -(b.key : Int)
      unfold natCmp
      split
      · next h => exact iff_of_false (by decide) (by omega)
      · next h =>
        split
        · next h2 => exact iff_of_false (by decide) (by omega)
        · next h2 => exact iff_of_true rfl (by omega)

theorem cmpDescNaLast_gt_iff (x y : Option DT) :
    cmpDescNaLast x y = .gt ↔ encDesc y < encDesc x := by
  cases x with
  | none =>
    cases y with
    | none => exact iff_of_false (by simp [cmpDescNaLast]) (by simp [encDesc])
    | some b => exact iff_of_true rfl (by simp only [encDesc]; omega)
  | some a =>
    cases y with
    | none => exact iff_of_false (by simp [cmpDescNaLast]) (by simp only [encDesc]; omega)
    | some b =>
      show natCmp b.key a.key = .gt ↔ -(b.key : Int) < -(a.key : Int)
      unfold natCmp
      split
      · next h => exact iff_of_false (by decide) (by omega)
      · next h =>
        split
        · next h2 => exact iff_of_true rfl (by omega)
        · next h2 => exact iff_of_false (by decide) (by omega)

theorem evLE_iff (a b : MergedEvent) : evLE a b = true ↔
    (encDesc a.snapshot_time_parsed < encDesc b.snapshot_time_parsed ∨
      (encDesc a.snapshot_time_parsed = encDesc b.snapshot_time_parsed ∧
        encDesc a.peak ≤ encDesc b.peak)) := by
  unfold evLE
  cases h1 : cmpDescNaLast a.snapshot_time_parsed b.snapshot_time_parsed with
  | lt =>
    rw [cmpDescNaLast_lt_iff] at h1
    exact iff_of_true (by simp [ordThen]) (Or.inl h1)
  | eq =>
    rw [cmpDescNaLast_eq_iff] at h1
    cases h2 : cmpDescNaLast a.peak b.peak with
    | lt =>
      rw [cmpDescNaLast_lt_iff] at h2
      exact iff_of_true (by simp [ordThen]) (Or.inr ⟨h1, le_of_lt h2⟩)
    | eq =>
      rw [cmpDescNaLast_eq_iff] at h2
      exact iff_of_true (by simp [ordThen]) (Or.inr ⟨h1, le_of_eq h2⟩)
    | gt =>
      rw [cmpDescNaLast_gt_iff] at h2
      exact iff_of_false (by simp [ordThen]) (by omega)
  | gt =>
    rw [cmpDescNaLast_gt_iff] at h1
    exact iff_of_false (by simp [ordThen]) (by omega)

theorem evLE_total (a b : MergedEvent) : evLE a b = true ∨ evLE b a = true := by
  rw [evLE_iff, evLE_iff]
  omega

theorem evLE_trans (a b c : MergedEvent) :
    evLE a b = true → evLE b c = true → evLE a c = true := by
  rw [evLE_iff, evLE_iff, evLE_iff]
  omega

theorem evLE_eq_false (a b : MergedEvent)
    (h : ¬ (encDesc a.snapshot_time_parsed < encDesc b.snapshot_time_parsed ∨
      (encDesc a.snapshot_time_parsed = encDesc b.snapshot_time_parsed ∧
        encDesc a.peak ≤ encDesc b.peak))) : evLE a b = false := by
  cases hh : evLE a b
  · rfl
  · exact absurd ((evLE_iff a b).mp hh) h

theorem sDescLE_iff (a b : SummaryRec) :
    sDescLE a b = true ↔ encDesc a.report_date ≤ encDesc b.report_date := by
  unfold sDescLE
  cases h1 : cmpDescNaLast a.report_date b.report_date with
  | lt =>
    rw [cmpDescNaLast_lt_iff] at h1
    exact iff_of_true rfl (by omega)
  | eq =>
    rw [cmpDescNaLast_eq_iff] at h1
    exact iff_of_true rfl (by omega)
  | gt =>
    rw [cmpDescNaLast_gt_iff] at h1
    exact iff_of_false (by simp) (by omega)

theorem sDescLE_total (a b : SummaryRec) : sDescLE a b = true ∨ sDescLE b a = true := by
  rw [sDescLE_iff, sDescLE_iff]
  omega

theorem sDescLE_trans (a b c : SummaryRec) :
    sDescLE a b = true → sDescLE b c = true → sDescLE a c = true := by
  rw [sDescLE_iff, sDescLE_iff, sDescLE_iff]
  omega

theorem sDescLE_of_key_eq (a b : SummaryRec) (h : sdKey a = sdKey b) :
    sDescLE a b = true := by
  rw [sDescLE_iff]
  unfold sdKey at h
  rw [h]

/-! ## Helper lemmas about the embedded pipelines -/

theorem eventsCombined_eq (old_df new_df : List RawEvent) :
    eventsCombined old_df new_df = old_df ++ new_df := by
  unfold eventsCombined
  split
  · next h => rw [h]; rfl
  · rfl

theorem update_events_csv_of_ne (old_df new_df : List RawEvent) (h : ¬ new_df = []) :
    update_events_csv old_df new_df =
      ((dedupKeepFirstBy enameKey
          (sortStable evLE ((old_df ++ new_df).map toMerged))).map renderEvent,
        ((dedupKeepFirstBy enameKey
          (sortStable evLE ((old_df ++ new_df).map toMerged))).map renderEvent).length
          - old_df.length) := by
  unfold update_events_csv
  rw [if_neg h, eventsCombined_eq]

theorem summaryCombined_eq (old_df : List SummaryCsvRow) (new_df : List SummaryRec) :
    summaryCombined old_df new_df = old_df.map summaryFromCsv ++ new_df := by
  unfold summaryCombined
  split
  · next h => rw [h]; rfl
  · rfl

theorem update_summary_csv_of_ne (old_df : List SummaryCsvRow) (new_df : List SummaryRec)
    (h : ¬ new_df = []) :
    update_summary_csv old_df new_df =
      ((sortStable sDescLE (dedupKeepLastBy sdKey (summaryCombined old_df new_df))).map
          renderSummary,
        (sortStable sDescLE (dedupKeepLastBy sdKey (summaryCombined old_df new_df))).length
          - old_df.length) := by
  unfold update_summary_csv
  rw [if_neg h]

theorem eventRows_cons_short (st su : String) (tr : Tr) (rest : List Tr) (h : tr.length < 7) :
    eventRows st su (tr :: rest) = eventRows st su rest := by
  match tr with
  | [] => rfl
  | [_] => rfl
  | [_, _] => rfl
  | [_, _, _] => rfl
  | [_, _, _, _] => rfl
  | [_, _, _, _, _] => rfl
  | [_, _, _, _, _, _] => rfl
  | _ :: _ :: _ :: _ :: _ :: _ :: _ :: _ =>
    exfalso
    simp only [List.length_cons] at h
    omega

theorem eventRows_cons_append (st su : String) (r : Tr) (l : List Tr) :
    eventRows st su (r :: l) = eventRows st su [r] ++ eventRows st su l := by
  match r with
  | [] => rfl
  | [_] => rfl
  | [_, _] => rfl
  | [_, _, _] => rfl
  | [_, _, _, _] => rfl
  | [_, _, _, _, _] => rfl
  | [_, _, _, _, _, _] => rfl
  | c0 :: c1 :: c2 :: c3 :: c4 :: c5 :: c6 :: t =>
    by_cases he : strStrip c1.text = "" <;> simp [eventRows, he]

theorem eventRows_append (st su : String) (l1 l2 : List Tr) :
    eventRows st su (l1 ++ l2) = eventRows st su l1 ++ eventRows st su l2 := by
  induction l1 with
  | nil => rfl
  | cons r t ih =>
    rw [List.cons_append, eventRows_cons_append, ih, eventRows_cons_append st su r t,
      List.append_assoc]

theorem eventRows_single_take (st su : String) (tr : Tr) :
    eventRows st su [tr] = eventRows st su [tr.take 7] := by
  match tr with
  | [] => rfl
  | [_] => rfl
  | [_, _] => rfl
  | [_, _, _] => rfl
  | [_, _, _, _] => rfl
  | [_, _, _, _, _] => rfl
  | [_, _, _, _, _, _] => rfl
  | c0 :: c1 :: c2 :: c3 :: c4 :: c5 :: c6 :: t =>
    show _ = eventRows st su [[c0, c1, c2, c3, c4, c5, c6]]
    by_cases he : strStrip c1.text = "" <;> simp [eventRows, he]

theorem summaryRows_cons_append (tr : Tr) (l : List Tr) :
    summaryRowsData (tr :: l) = summaryRowsData [tr] ++ summaryRowsData l := by
  by_cases h : tr.length < 9 <;> simp [summaryRowsData, h]

theorem summaryRows_append (l1 l2 : List Tr) :
    summaryRowsData (l1 ++ l2) = summaryRowsData l1 ++ summaryRowsData l2 := by
  induction l1 with
  | nil => rfl
  | cons r t ih =>
    rw [List.cons_append, summaryRows_cons_append, ih, summaryRows_cons_append r t,
      List.append_assoc]

theorem summaryRows_single_take (tr : Tr) :
    summaryRowsData [tr] = summaryRowsData [tr.take 9] := by
  by_cases h : tr.length < 9
  · rw [List.take_of_length_le (by omega)]
  · have h9 : (tr.take 9).length = 9 := by
      rw [List.length_take]
      omega
    simp [summaryRowsData, h, h9, List.take_take]

/-! ## Claims -/

/-- Claim C6: if the freshly extracted table has zero rows, the pipeline
performs no merge, leaves the persisted table byte-for-byte unchanged (the
run returns before loading or writing anything) and adds zero rows; this
holds for the event path and for the summary path. -/
theorem C6_empty_extraction_noop :
    (∀ disk : List RawEvent, update_events_csv disk [] = (disk, 0)) ∧
      (∀ disk : List SummaryCsvRow, update_summary_csv disk [] = (disk, 0)) := by
  constructor
  · intro disk
    rfl
  · intro disk
    rfl

/-- Claim C7: scanning index rows in document order, the first row that
parses below the cutoff year stops the scan entirely: whatever rows follow
it (even ones that would qualify), the output is exactly that of the prefix
before the breaking row. -/
theorem C7_cutoff_early_termination (base : String) (pre post : List Tr) (bad : Tr)
    (hpre : ∀ tr ∈ pre, rowBreaks tr = false) (hbad : rowBreaks bad = true) :
    fetch_snapshot_links base (some (pre ++ bad :: post)) =
      fetch_snapshot_links base (some pre) := by
  show snapshotLinkRows base (pre ++ bad :: post) = snapshotLinkRows base pre
  induction pre with
  | nil =>
    show snapshotLinkRows base (bad :: post) = []
    cases bad with
    | nil => simp [rowBreaks] at hbad
    | cons td0 tds =>
      simp only [rowBreaks] at hbad
      cases h1 : td0.anchors.head? with
      | none =>
        simp only [h1] at hbad
        simp at hbad
      | some a =>
        simp only [h1] at hbad
        cases h2 : parse_dmy_hm (strStrip a.text) with
        | none =>
          simp only [h2] at hbad
          simp at hbad
        | some d =>
          simp only [h2] at hbad
          simp only [decide_eq_true_eq] at hbad
          simp [snapshotLinkRows, h1, h2, hbad]
  | cons tr rest ih =>
    have htr := hpre tr (by simp)
    have ih' := ih (fun x hx => hpre x (by simp [hx]))
    show snapshotLinkRows base (tr :: (rest ++ bad :: post)) = snapshotLinkRows base (tr :: rest)
    cases tr with
    | nil =>
      show snapshotLinkRows base ([] :: (rest ++ bad :: post)) =
        snapshotLinkRows base ([] :: rest)
      simp only [snapshotLinkRows]
      exact ih'
    | cons td0 tds =>
      simp only [rowBreaks] at htr
      cases h1 : td0.anchors.head? with
      | none => simp [snapshotLinkRows, h1, ih']
      | some a =>
        simp only [h1] at htr
        cases h2 : parse_dmy_hm (strStrip a.text) with
        | none => simp [snapshotLinkRows, h1, h2, ih']
        | some d =>
          simp only [h2] at htr
          have hyear : ¬ d.year < MIN_YEAR := by
            intro hy
            rw [decide_eq_true hy] at htr
            exact Bool.noConfusion htr
          simp [snapshotLinkRows, h1, h2, hyear, ih']

/-- Claim C7 witness: the spec's scenario — snapshots dated 2022, 2021,
2019, 2023 in that row order with cutoff 2020: the scan output equals that
of the prefix before the 2019 row (so the 2023 row is never reached), and
that prefix yields exactly the 2022 and 2021 entries. -/
theorem C7_witness :
    fetch_snapshot_links "https://x/a.html"
        (some ([[⟨"", [⟨"01-Jan-2022 00:00", "s22.html"⟩]⟩],
            [⟨"", [⟨"01-Jan-2021 00:00", "s21.html"⟩]⟩]] ++
          [⟨"", [⟨"01-Jan-2019 00:00", "s19.html"⟩]⟩] ::
            [[⟨"", [⟨"01-Jan-2023 00:00", "s23.html"⟩]⟩]])) =
      fetch_snapshot_links "https://x/a.html"
        (some [[⟨"", [⟨"01-Jan-2022 00:00", "s22.html"⟩]⟩],
          [⟨"", [⟨"01-Jan-2021 00:00", "s21.html"⟩]⟩]]) ∧
    fetch_snapshot_links "https://x/a.html"
        (some [[⟨"", [⟨"01-Jan-2022 00:00", "s22.html"⟩]⟩],
          [⟨"", [⟨"01-Jan-2021 00:00", "s21.html"⟩]⟩]]) =
      [⟨"01-Jan-2022 00:00", "https://x/s22.html"⟩,
        ⟨"01-Jan-2021 00:00", "https://x/s21.html"⟩] :=
  ⟨C7_cutoff_early_termination "https://x/a.html"
      [[⟨"", [⟨"01-Jan-2022 00:00", "s22.html"⟩]⟩],
        [⟨"", [⟨"01-Jan-2021 00:00", "s21.html"⟩]⟩]]
      [[⟨"", [⟨"01-Jan-2023 00:00", "s23.html"⟩]⟩]]
      [⟨"", [⟨"01-Jan-2019 00:00", "s19.html"⟩]⟩]
      (by decide) (by decide),
    by decide⟩

/-- Claim C8: an event-page row with fewer than 7 cells, and a summary-page
row with fewer than 9 cells, contribute nothing to the extracted output
wherever they occur; rows meeting the minimum are read from their leading 7
(resp. 9) cells only, later cells being ignored. -/
theorem C8_minimum_column_discard :
    (∀ st su (tr : Tr) pre post, tr.length < 7 →
      eventRows st su (pre ++ tr :: post) = eventRows st su (pre ++ post)) ∧
    (∀ (tr : Tr) pre post, tr.length < 9 →
      summaryRowsData (pre ++ tr :: post) = summaryRowsData (pre ++ post)) ∧
    (∀ st su (tr tr' : Tr) rest, tr.take 7 = tr'.take 7 →
      eventRows st su (tr :: rest) = eventRows st su (tr' :: rest)) ∧
    (∀ (tr tr' : Tr) rest, tr.take 9 = tr'.take 9 →
      summaryRowsData (tr :: rest) = summaryRowsData (tr' :: rest)) := by
  refine ⟨?_, ?_, ?_, ?_⟩
  · intro st su tr pre post h
    rw [eventRows_append, eventRows_append, eventRows_cons_short st su tr post h]
  · intro tr pre post h
    rw [summaryRows_append, summaryRows_append]
    have : summaryRowsData (tr :: post) = summaryRowsData post := by
      simp [summaryRowsData, h]
    rw [this]
  · intro st su tr tr' rest h
    rw [eventRows_cons_append, eventRows_single_take, h, ← eventRows_single_take,
      ← eventRows_cons_append]
  · intro tr tr' rest h
    rw [summaryRows_cons_append, summaryRows_single_take, h, ← summaryRows_single_take,
      ← summaryRows_cons_append]

/-- Claim C8 witness: a 6-cell event row and an 8-cell summary row are
dropped; extra cells beyond the positional minimum do not change the
extracted record. -/
theorem C8_witness :
    eventRows "t" "u"
        ([[⟨"1", []⟩, ⟨"E1", []⟩, ⟨"a", []⟩, ⟨"b", []⟩, ⟨"c", []⟩, ⟨"d", []⟩]] ++
          [] :: []) =
      eventRows "t" "u" ([[⟨"1", []⟩, ⟨"E1", []⟩, ⟨"a", []⟩, ⟨"b", []⟩, ⟨"c", []⟩, ⟨"d", []⟩]]
        ++ []) ∧
    summaryRowsData ([] ++ [⟨"x", []⟩] :: []) = summaryRowsData ([] ++ []) := by
  constructor
  · exact C8_minimum_column_discard.1 "t" "u" [] _ [] (by decide)
  · exact C8_minimum_column_discard.2.1 [⟨"x", []⟩] [] [] (by decide)

/-- Claim C9 counterexample: the claim says the index builder locates the
first embedded link anywhere in the row; but on a row whose first cell has
no link and whose second cell holds a qualifying link, the code returns
nothing (it only consults the first cell), while the spec's described scan
returns the entry. -/
theorem C9_counterexample :
    fetch_snapshot_links "https://lmsal.com/solarsoft/latest_events_archive.html"
        (some [[⟨"", []⟩, ⟨"", [⟨"01-Jan-2022 00:00", "snap.html"⟩]⟩]]) = [] ∧
      snapshotLinkRowsSpec "https://lmsal.com/solarsoft/latest_events_archive.html"
        [[⟨"", []⟩, ⟨"", [⟨"01-Jan-2022 00:00", "snap.html"⟩]⟩]] =
        [⟨"01-Jan-2022 00:00", "https://lmsal.com/solarsoft/snap.html"⟩] := by
  constructor
  · decide
  · decide

/-- Claim C9 (amended): for every index row the builder looks only inside
the row's first cell: a row with no cells, or whose first cell holds no
link, is skipped regardless of links in later cells; a first-cell link whose
text fails the strict parse is likewise skipped without aborting the scan. -/
theorem C9_amended_first_cell_link :
    (∀ base (td0 : Td) (tds : List Td) (rest : List Tr), td0.anchors = [] →
      snapshotLinkRows base ((td0 :: tds) :: rest) = snapshotLinkRows base rest) ∧
    (∀ base (td0 : Td) (tds : List Td) (rest : List Tr) (a : Anchor),
      td0.anchors.head? = some a → parse_dmy_hm (strStrip a.text) = none →
      snapshotLinkRows base ((td0 :: tds) :: rest) = snapshotLinkRows base rest) ∧
    (∀ base (rest : List Tr), snapshotLinkRows base ([] :: rest) = snapshotLinkRows base rest) := by
  refine ⟨?_, ?_, ?_⟩
  · intro base td0 tds rest h
    simp [snapshotLinkRows, h]
  · intro base td0 tds rest a h1 h2
    simp [snapshotLinkRows, h1, h2]
  · intro base rest
    rfl

/-- Claim C9 amended witness: a row whose first cell has no link is skipped
even though its second cell links to a qualifying snapshot, and a row whose
first-cell link text does not parse is skipped without stopping the scan. -/
theorem C9_amended_witness :
    snapshotLinkRows "b" [[⟨"", []⟩, ⟨"", [⟨"01-Jan-2022 00:00", "s.html"⟩]⟩]] =
        snapshotLinkRows "b" [] ∧
      snapshotLinkRows "b" [[⟨"", [⟨"not a date", "s.html"⟩]⟩]] = snapshotLinkRows "b" [] := by
  constructor
  · exact C9_amended_first_cell_link.1 "b" ⟨"", []⟩ _ [] rfl
  · exact C9_amended_first_cell_link.2.1 "b" ⟨"", [⟨"not a date", "s.html"⟩]⟩ [] []
      ⟨"not a date", "s.html"⟩ rfl (by decide)

/-- Claim C10: query mode never selects a row whose classification field is
missing; every printed X-class row has a present classification value whose
text starts with the character X, and at most 20 rows are printed. -/
theorem C10_query_x_filter (df : List LoadedEventRow) (r : LoadedEventRow)
    (hr : r ∈ query_events_csv df) :
    (∃ s, r.goes_class = some s ∧ startsWithX (some s) = true) ∧
      (query_events_csv df).length ≤ 20 := by
  constructor
  · have hr' : r ∈ df.filter fun x => startsWithX x.goes_class :=
      List.mem_of_mem_take hr
    have hx := (List.mem_filter.mp hr').2
    cases hg : r.goes_class with
    | none =>
      rw [hg] at hx
      exact absurd hx (by simp [startsWithX])
    | some s =>
      rw [hg] at hx
      exact ⟨s, rfl, hx⟩
  · exact List.length_take_le 20 _

/-- Claim C10 witness: on a concrete table with one missing classification,
one C-class and one X-class row, the X-class row is selected and the bound
holds. -/
theorem C10_witness :
    (∃ s, (⟨some "t", some "u", some "1", some "E1", none, none, some "p", some "X2.3",
        some "S10E20"⟩ : LoadedEventRow).goes_class = some s ∧ startsWithX (some s) = true) ∧
      (query_events_csv
        [⟨some "t", some "u", some "1", some "E0", none, none, some "p", none, none⟩,
         ⟨some "t", some "u", some "2", some "E2", none, none, some "p", some "C1.0", none⟩,
         ⟨some "t", some "u", some "1", some "E1", none, none, some "p", some "X2.3",
           some "S10E20"⟩]).length ≤ 20 :=
  C10_query_x_filter _ _ (by decide)

theorem perm_pair_cases {α : Type} {l : List α} {a b : α} (h : List.Perm l [a, b]) :
    l = [a, b] ∨ l = [b, a] := by
  cases l with
  | nil => exact absurd h.length_eq (by simp)
  | cons x t =>
    cases t with
    | nil => exact absurd h.length_eq (by simp)
    | cons y t2 =>
      cases t2 with
      | cons z t3 => exact absurd h.length_eq (by simp)
      | nil =>
        have hx : x = a ∨ x = b := by
          have hm : x ∈ [a, b] := h.subset (by simp)
          simpa using hm
        rcases hx with rfl | rfl
        · have h2 : List.Perm [y] [b] := h.cons_inv
          have hy : y = b := by simpa using h2.subset (by simp)
          exact Or.inl (by rw [hy])
        · have hswap : List.Perm [a, x] [x, a] := List.Perm.swap x a []
          have h3 : List.Perm [y] [a] := (h.trans hswap).cons_inv
          have hy : y = a := by simpa using h3.subset (by simp)
          exact Or.inr (by rw [hy])

theorem filter_key_length_le_one {α κ : Type} [DecidableEq κ] (k : α → κ) (c : κ)
    {l : List α} (h : l.Pairwise fun x y => k x ≠ k y) :
    (l.filter fun x => decide (k x = c)).length ≤ 1 := by
  induction l with
  | nil => simp
  | cons a t ih =>
    rw [List.pairwise_cons] at h
    obtain ⟨ha, ht⟩ := h
    rw [List.filter_cons]
    by_cases hc : k a = c
    · rw [if_pos (by simp [hc])]
      have hnil : t.filter (fun x => decide (k x = c)) = [] := by
        rw [List.filter_eq_nil_iff]
        intro y hy hyc
        simp only [decide_eq_true_eq] at hyc
        exact (ha y hy) (hc.trans hyc.symm)
      simp [hnil]
    · rw [if_neg (by simp [hc])]
      exact ih ht

/-- Shared engine fact for the two single-pair claims: if exactly the two
records `r1, r2` of the combined input carry the identifier `e` (in either
input order) and `r1`'s merged row may not sort at-or-before `r2`'s, then the
written table's sole `e`-row is the one derived from `r2`. -/
theorem events_pair_survivor (old_df new_df : List RawEvent) (hne : ¬ new_df = [])
    (r1 r2 : RawEvent) (e : String)
    (hfil : (old_df ++ new_df).filter (fun r => decide (r.ename = e)) = [r1, r2] ∨
      (old_df ++ new_df).filter (fun r => decide (r.ename = e)) = [r2, r1])
    (hle : evLE (toMerged r1) (toMerged r2) = false) :
    ((update_events_csv old_df new_df).1).filter (fun r => decide (r.ename = e)) =
      [renderEvent (toMerged r2)] := by
  rw [update_events_csv_of_ne old_df new_df hne]
  show ((dedupKeepFirstBy enameKey
      (sortStable evLE ((old_df ++ new_df).map toMerged))).map renderEvent).filter
      (fun r => decide (r.ename = e)) = [renderEvent (toMerged r2)]
  rw [List.filter_map]
  show ((dedupKeepFirstBy enameKey
      (sortStable evLE ((old_df ++ new_df).map toMerged))).filter
      (fun m => decide (enameKey m = e))).map renderEvent = [renderEvent (toMerged r2)]
  rw [dedupF_filter_key]
  have hmapfil : ((old_df ++ new_df).map toMerged).filter (fun m => decide (enameKey m = e)) =
      ((old_df ++ new_df).filter (fun r => decide (r.ename = e))).map toMerged := by
    rw [List.filter_map]
    rfl
  have hperm : List.Perm ((sortStable evLE ((old_df ++ new_df).map toMerged)).filter
      (fun m => decide (enameKey m = e)))
      (((old_df ++ new_df).filter (fun r => decide (r.ename = e))).map toMerged) := by
    rw [← hmapfil]
    exact (sortStable_perm evLE _).filter _
  have hsorted := (sortStable_pairwise evLE evLE_total evLE_trans
    ((old_df ++ new_df).map toMerged)).filter (fun m => decide (enameKey m = e))
  have hF : (sortStable evLE ((old_df ++ new_df).map toMerged)).filter
      (fun m => decide (enameKey m = e)) = [toMerged r2, toMerged r1] := by
    rcases hfil with hfil | hfil
    · rw [hfil] at hperm
      simp only [List.map_cons, List.map_nil] at hperm
      rcases perm_pair_cases hperm with hF | hF
      · rw [hF, List.pairwise_cons] at hsorted
        exact absurd (hsorted.1 (toMerged r2) (by simp)) (by simp [hle])
      · exact hF
    · rw [hfil] at hperm
      simp only [List.map_cons, List.map_nil] at hperm
      rcases perm_pair_cases hperm with hF | hF
      · exact hF
      · rw [hF, List.pairwise_cons] at hsorted
        exact absurd (hsorted.1 (toMerged r2) (by simp)) (by simp [hle])
  rw [hF]
  rfl

/-- Claim C1: recency precedence of the event merge — when exactly two input
records (prior or fresh, in either order) share an identifier and their
snapshot-time texts parse to two timestamps with the first strictly earlier,
the single surviving row of the written table is the one derived from the
record with the strictly later snapshot timestamp. -/
theorem C1_recency_precedence (old_df new_df : List RawEvent) (hne : ¬ new_df = [])
    (r1 r2 : RawEvent) (t1 t2 : DT) (e : String)
    (he1 : r1.ename = e) (he2 : r2.ename = e)
    (hp1 : parse_dmy_hm r1.snapshot_time = some t1)
    (hp2 : parse_dmy_hm r2.snapshot_time = some t2)
    (hlt : t1.key < t2.key)
    (hfil : (old_df ++ new_df).filter (fun r => decide (r.ename = e)) = [r1, r2] ∨
      (old_df ++ new_df).filter (fun r => decide (r.ename = e)) = [r2, r1]) :
    ((update_events_csv old_df new_df).1).filter (fun r => decide (r.ename = e)) =
      [renderEvent (toMerged r2)] := by
  apply events_pair_survivor old_df new_df hne r1 r2 e hfil
  apply evLE_eq_false
  have h1 : (toMerged r1).snapshot_time_parsed = some t1 := hp1
  have h2 : (toMerged r2).snapshot_time_parsed = some t2 := hp2
  rw [h1, h2]
  simp only [encDesc]
  omega

/-- Claim C1 witness: the spec's own scenario — prior table has `E1` from the
snapshot of 01-Jan-2021, the fresh extraction has `E1` from 02-Jan-2021 plus
a new `E2`; the surviving `E1` row is the one from the later snapshot. -/
theorem C1_witness :
    ((update_events_csv
        [⟨"01-Jan-2021 00:00", "u1", "1", "E1", "", "", "2021-01-01 01:00:00", "C1.0", "S10E20"⟩]
        [⟨"02-Jan-2021 00:00", "u2", "1", "E1", "", "", "2021-01-02 02:00:00", "C2.0", "S10E21"⟩,
         ⟨"02-Jan-2021 00:00", "u2", "2", "E2", "", "", "2021-01-02 03:00:00", "M1.0", "N05W30"⟩]).1).filter
      (fun r => decide (r.ename = "E1")) =
      [renderEvent (toMerged
        ⟨"02-Jan-2021 00:00", "u2", "1", "E1", "", "", "2021-01-02 02:00:00", "C2.0", "S10E21"⟩)] :=
  C1_recency_precedence _ _ (by decide)
    ⟨"01-Jan-2021 00:00", "u1", "1", "E1", "", "", "2021-01-01 01:00:00", "C1.0", "S10E20"⟩
    ⟨"02-Jan-2021 00:00", "u2", "1", "E1", "", "", "2021-01-02 02:00:00", "C2.0", "S10E21"⟩
    ⟨2021, 1, 1, 0, 0, 0⟩ ⟨2021, 1, 2, 0, 0, 0⟩ "E1"
    rfl rfl (by decide) (by decide) (by decide) (Or.inl (by decide))

/-- Claim C2: peak-time tie-break — when exactly two input records share an
identifier and an identical parseable snapshot timestamp, and the second's
peak column outranks the first's (later parseable peak, or parseable versus
missing/unparseable), the single surviving row is the one derived from the
second. -/
theorem C2_peak_tiebreak (old_df new_df : List RawEvent) (hne : ¬ new_df = [])
    (r1 r2 : RawEvent) (t : DT) (e : String)
    (he1 : r1.ename = e) (he2 : r2.ename = e)
    (hp1 : parse_dmy_hm r1.snapshot_time = some t)
    (hp2 : parse_dmy_hm r2.snapshot_time = some t)
    (hpk : peakOutranks (to_datetime_flex r2.peak) (to_datetime_flex r1.peak))
    (hfil : (old_df ++ new_df).filter (fun r => decide (r.ename = e)) = [r1, r2] ∨
      (old_df ++ new_df).filter (fun r => decide (r.ename = e)) = [r2, r1]) :
    ((update_events_csv old_df new_df).1).filter (fun r => decide (r.ename = e)) =
      [renderEvent (toMerged r2)] := by
  apply events_pair_survivor old_df new_df hne r1 r2 e hfil
  apply evLE_eq_false
  have h1 : (toMerged r1).snapshot_time_parsed = some t := hp1
  have h2 : (toMerged r2).snapshot_time_parsed = some t := hp2
  have hq1 : (toMerged r1).peak = to_datetime_flex r1.peak := rfl
  have hq2 : (toMerged r2).peak = to_datetime_flex r2.peak := rfl
  rw [h1, h2, hq1, hq2]
  cases hv2 : to_datetime_flex r2.peak with
  | none =>
    rw [hv2] at hpk
    exact absurd hpk (by simp [peakOutranks])
  | some b =>
    cases hv1 : to_datetime_flex r1.peak with
    | none =>
      simp only [encDesc]
      omega
    | some a =>
      rw [hv2, hv1] at hpk
      have hab : a.key < b.key := hpk
      simp only [encDesc]
      omega

/-- Claim C2 witness: two observations of `E1` from the same snapshot, the
fresh one with the later peak; the surviving row is the later-peak one. -/
theorem C2_witness :
    ((update_events_csv
        [⟨"01-Jan-2021 00:00", "u1", "1", "E1", "", "", "2021-01-01 01:00:00", "C1.0", "S10E20"⟩]
        [⟨"01-Jan-2021 00:00", "u2", "1", "E1", "", "", "2021-01-01 02:00:00", "C2.0", "S10E21"⟩]).1).filter
      (fun r => decide (r.ename = "E1")) =
      [renderEvent (toMerged
        ⟨"01-Jan-2021 00:00", "u2", "1", "E1", "", "", "2021-01-01 02:00:00", "C2.0", "S10E21"⟩)] :=
  C2_peak_tiebreak _ _ (by decide)
    ⟨"01-Jan-2021 00:00", "u1", "1", "E1", "", "", "2021-01-01 01:00:00", "C1.0", "S10E20"⟩
    ⟨"01-Jan-2021 00:00", "u2", "1", "E1", "", "", "2021-01-01 02:00:00", "C2.0", "S10E21"⟩
    ⟨2021, 1, 1, 0, 0, 0⟩ "E1" rfl rfl
    (by decide) (by decide) (by decide) (Or.inl (by decide))

/-- Claim C5: dedup key uniqueness — whenever the event pipeline writes
output, every identifier present in the written table is carried by exactly
one of its rows. -/
theorem C5_dedup_key_uniqueness (old_df new_df : List RawEvent) (hne : ¬ new_df = [])
    (e : String) (he : e ∈ ((update_events_csv old_df new_df).1).map RawEvent.ename) :
    (((update_events_csv old_df new_df).1).filter (fun r => decide (r.ename = e))).length = 1 := by
  rw [update_events_csv_of_ne old_df new_df hne] at he ⊢
  show (((dedupKeepFirstBy enameKey
      (sortStable evLE ((old_df ++ new_df).map toMerged))).map renderEvent).filter
      (fun r => decide (r.ename = e))).length = 1
  rw [List.filter_map, List.length_map]
  show ((dedupKeepFirstBy enameKey
      (sortStable evLE ((old_df ++ new_df).map toMerged))).filter
      (fun m => decide (enameKey m = e))).length = 1
  have hle1 := filter_key_length_le_one enameKey e
    (dedupF_keys_nodup enameKey (sortStable evLE ((old_df ++ new_df).map toMerged)))
  rw [List.map_map] at he
  obtain ⟨m, hm, hme⟩ := List.mem_map.mp he
  have hmem : m ∈ (dedupKeepFirstBy enameKey
      (sortStable evLE ((old_df ++ new_df).map toMerged))).filter
      (fun x => decide (enameKey x = e)) :=
    List.mem_filter.mpr ⟨hm, by simp [enameKey]; exact hme⟩
  have hge1 := List.length_pos.mpr (List.ne_nil_of_mem hmem)
  omega

/-- Claim C5 witness: after merging a table that mentions `E1` twice and `E2`
once, the identifier `E1` is present and carried by exactly one row. -/
theorem C5_witness :
    (((update_events_csv
        [⟨"01-Jan-2021 00:00", "u1", "1", "E1", "", "", "2021-01-01 01:00:00", "C1.0", "S10E20"⟩]
        [⟨"02-Jan-2021 00:00", "u2", "1", "E1", "", "", "2021-01-02 02:00:00", "C2.0", "S10E21"⟩,
         ⟨"02-Jan-2021 00:00", "u2", "2", "E2", "", "", "2021-01-02 03:00:00", "M1.0", "N05W30"⟩]).1).filter
      (fun r => decide (r.ename = "E1"))).length = 1 :=
  C5_dedup_key_uniqueness _ _ (by decide) "E1" (by decide)

/-- Re-parsing a row that the merge has already normalised and written out
reproduces the same in-memory row: the snapshot-time text is persisted
verbatim, and the canonical rendering of each parsed time column re-parses
to the same value. -/
theorem toMerged_renderEvent_toMerged (r : RawEvent) :
    toMerged (renderEvent (toMerged r)) = toMerged r := by
  unfold toMerged renderEvent
  simp only [to_datetime_flex_renderOptDT]

/-- Claim C3: idempotence of the event-update pipeline — a second run with
the same extracted rows, taking the first run's written table as prior
state, writes a byte-identical table and reports zero rows added. -/
theorem C3_idempotence (old_df new_df : List RawEvent) (hne : ¬ new_df = []) :
    update_events_csv (update_events_csv old_df new_df).1 new_df =
      ((update_events_csv old_df new_df).1, 0) := by
  have hout : (update_events_csv old_df new_df).1 =
      (dedupKeepFirstBy enameKey
        (sortStable evLE ((old_df ++ new_df).map toMerged))).map renderEvent := by
    rw [update_events_csv_of_ne old_df new_df hne]
  rw [hout]
  set M : List MergedEvent := (old_df ++ new_df).map toMerged with hM
  set D : List MergedEvent := dedupKeepFirstBy enameKey (sortStable evLE M) with hD
  have hDpair : D.Pairwise fun x y => evLE x y = true :=
    (sortStable_pairwise evLE evLE_total evLE_trans M).sublist
      (dedupF_sublist enameKey (sortStable evLE M))
  have hDkeys : D.Pairwise fun x y => enameKey x ≠ enameKey y :=
    dedupF_keys_nodup enameKey (sortStable evLE M)
  have hDmem : ∀ m ∈ D, m ∈ M := fun m hm =>
    ((sortStable_perm evLE M).mem_iff).mp
      ((dedupF_sublist enameKey (sortStable evLE M)).subset hm)
  have hmapD : (D.map renderEvent).map toMerged = D := by
    rw [List.map_map]
    have hcg : ∀ m ∈ D, (toMerged ∘ renderEvent) m = id m := by
      intro m hm
      obtain ⟨r, _, hrm⟩ := List.mem_map.mp (hDmem m hm)
      show toMerged (renderEvent m) = m
      rw [← hrm]
      exact toMerged_renderEvent_toMerged r
    rw [List.map_congr_left hcg, List.map_id]
  have hdom : ∀ n ∈ new_df.map toMerged, ∃ d ∈ D, enameKey d = enameKey n ∧ evLE d n = true := by
    intro n hn
    have hnM : n ∈ M := by
      rw [hM, List.map_append]
      exact List.mem_append.mpr (Or.inr hn)
    have hnS : n ∈ sortStable evLE M := ((sortStable_perm evLE M).mem_iff).mpr hnM
    have hnF : n ∈ (sortStable evLE M).filter (fun x => decide (enameKey x = enameKey n)) :=
      List.mem_filter.mpr ⟨hnS, by simp⟩
    have hfk := dedupF_filter_key enameKey (enameKey n) (sortStable evLE M)
    cases hSf : (sortStable evLE M).filter (fun x => decide (enameKey x = enameKey n)) with
    | nil =>
      rw [hSf] at hnF
      exact absurd hnF (by simp)
    | cons d rest =>
      have hdf : d ∈ D.filter (fun x => decide (enameKey x = enameKey n)) := by
        rw [← hD] at hfk
        rw [hfk, hSf]
        simp
      have hdD : d ∈ D := (List.mem_filter.mp hdf).1
      have hdk : enameKey d = enameKey n := by
        have := (List.mem_filter.mp hdf).2
        simpa using this
      have hdle : evLE d n = true := by
        have hp := (sortStable_pairwise evLE evLE_total evLE_trans M).filter
          (fun x => decide (enameKey x = enameKey n))
        rw [hSf] at hp hnF
        rcases List.mem_cons.mp hnF with rfl | hn'
        · rw [evLE_iff]
          omega
        · exact (List.pairwise_cons.mp hp).1 n hn'
      exact ⟨d, hdD, hdk, hdle⟩
  have habsorb := dedupF_sorted_absorb evLE enameKey evLE_total evLE_trans hDpair hDkeys
    (new_df.map toMerged) hdom
  rw [update_events_csv_of_ne _ new_df hne]
  have hcomb : ((D.map renderEvent) ++ new_df).map toMerged = D ++ new_df.map toMerged := by
    rw [List.map_append, hmapD]
  rw [hcomb, habsorb]
  simp

/-- Claim C3 witness: running the merge of the spec's scenario twice — the
second run on the first run's output — returns unchanged output and zero
added rows. -/
theorem C3_witness :
    update_events_csv
        (update_events_csv
          [⟨"01-Jan-2021 00:00", "u1", "1", "E1", "", "", "2021-01-01 01:00:00", "C1.0", "S10E20"⟩]
          [⟨"02-Jan-2021 00:00", "u2", "1", "E1", "", "", "2021-01-02 02:00:00", "C2.0", "S10E21"⟩,
           ⟨"02-Jan-2021 00:00", "u2", "2", "E2", "", "", "2021-01-02 03:00:00", "M1.0", "N05W30"⟩]).1
        [⟨"02-Jan-2021 00:00", "u2", "1", "E1", "", "", "2021-01-02 02:00:00", "C2.0", "S10E21"⟩,
         ⟨"02-Jan-2021 00:00", "u2", "2", "E2", "", "", "2021-01-02 03:00:00", "M1.0", "N05W30"⟩] =
      ((update_events_csv
          [⟨"01-Jan-2021 00:00", "u1", "1", "E1", "", "", "2021-01-01 01:00:00", "C1.0", "S10E20"⟩]
          [⟨"02-Jan-2021 00:00", "u2", "1", "E1", "", "", "2021-01-02 02:00:00", "C2.0", "S10E21"⟩,
           ⟨"02-Jan-2021 00:00", "u2", "2", "E2", "", "", "2021-01-02 03:00:00", "M1.0", "N05W30"⟩]).1,
        0) :=
  C3_idempotence _ _ (by decide)

/-- Claim C4: summary dedup mechanism — for every run that writes, (a) the
written table is the render of the sorted keep-last-deduped working set;
(b) per report-date key the surviving row is the last row of the combined
(insertion-ordered) working set with that key, so when the prior table and
the fresh extraction both carry a date, the most recently inserted row
survives; and (c) the written working set is exactly what the spec's
"sort descending immediately before a keep-last dedup" produces: the code's
keep-last-then-sort composition coincides with sort-descending-then-keep-last
on the working set. -/
theorem C4_summary_dedup (old_df : List SummaryCsvRow) (new_df : List SummaryRec)
    (hne : ¬ new_df = []) (c : Option DT) :
    ((update_summary_csv old_df new_df).1 =
      (sortStable sDescLE (dedupKeepLastBy sdKey (summaryCombined old_df new_df))).map
        renderSummary) ∧
    ((sortStable sDescLE (dedupKeepLastBy sdKey (summaryCombined old_df new_df))).filter
        (fun r => decide (sdKey r = c)) =
      (((summaryCombined old_df new_df).filter
        (fun r => decide (sdKey r = c))).getLast?).toList) ∧
    (sortStable sDescLE (dedupKeepLastBy sdKey (summaryCombined old_df new_df)) =
      dedupKeepLastBy sdKey (sortStable sDescLE (summaryCombined old_df new_df))) := by
  refine ⟨?_, ?_, ?_⟩
  · rw [update_summary_csv_of_ne old_df new_df hne]
  · have hperm := (sortStable_perm sDescLE
      (dedupKeepLastBy sdKey (summaryCombined old_df new_df))).filter
      (fun r => decide (sdKey r = c))
    rw [dedupL_filter_key sdKey c (summaryCombined old_df new_df)] at hperm
    cases hg : ((summaryCombined old_df new_df).filter
        (fun r => decide (sdKey r = c))).getLast? with
    | none =>
      rw [hg] at hperm
      exact List.perm_nil.mp hperm
    | some x =>
      rw [hg] at hperm
      exact List.perm_singleton.mp hperm
  · exact sort_dedupL_comm sDescLE sdKey sDescLE_total sDescLE_trans sDescLE_of_key_eq _

/-- Claim C4 witness: the prior table and the fresh extraction both carry
02-Jan-2021; the most recently inserted (fresh) row is the unique survivor
for that date, and the two step orders agree on this working set. -/
theorem C4_witness :
    ((update_summary_csv
        [⟨"2021-01-02 00:00:00", "s", "e", "5", "X1.0", "1", "2", "3", "0"⟩]
        [⟨some ⟨2021, 1, 2, 0, 0, 0⟩, "s2", "e2", "6", "X2.0", "2", "3", "4", "1"⟩]).1 =
      (sortStable sDescLE (dedupKeepLastBy sdKey (summaryCombined
        [⟨"2021-01-02 00:00:00", "s", "e", "5", "X1.0", "1", "2", "3", "0"⟩]
        [⟨some ⟨2021, 1, 2, 0, 0, 0⟩, "s2", "e2", "6", "X2.0", "2", "3", "4", "1"⟩]))).map
        renderSummary) ∧
    ((sortStable sDescLE (dedupKeepLastBy sdKey (summaryCombined
        [⟨"2021-01-02 00:00:00", "s", "e", "5", "X1.0", "1", "2", "3", "0"⟩]
        [⟨some ⟨2021, 1, 2, 0, 0, 0⟩, "s2", "e2", "6", "X2.0", "2", "3", "4", "1"⟩]))).filter
        (fun r => decide (sdKey r = some ⟨2021, 1, 2, 0, 0, 0⟩)) =
      (((summaryCombined
        [⟨"2021-01-02 00:00:00", "s", "e", "5", "X1.0", "1", "2", "3", "0"⟩]
        [⟨some ⟨2021, 1, 2, 0, 0, 0⟩, "s2", "e2", "6", "X2.0", "2", "3", "4", "1"⟩]).filter
        (fun r => decide (sdKey r = some ⟨2021, 1, 2, 0, 0, 0⟩))).getLast?).toList) ∧
    (sortStable sDescLE (dedupKeepLastBy sdKey (summaryCombined
        [⟨"2021-01-02 00:00:00", "s", "e", "5", "X1.0", "1", "2", "3", "0"⟩]
        [⟨some ⟨2021, 1, 2, 0, 0, 0⟩, "s2", "e2", "6", "X2.0", "2", "3", "4", "1"⟩])) =
      dedupKeepLastBy sdKey (sortStable sDescLE (summaryCombined
        [⟨"2021-01-02 00:00:00", "s", "e", "5", "X1.0", "1", "2", "3", "0"⟩]
        [⟨some ⟨2021, 1, 2, 0, 0, 0⟩, "s2", "e2", "6", "X2.0", "2", "3", "4", "1"⟩]))) :=
  C4_summary_dedup
    [⟨"2021-01-02 00:00:00", "s", "e", "5", "X1.0", "1", "2", "3", "0"⟩]
    [⟨some ⟨2021, 1, 2, 0, 0, 0⟩, "s2", "e2", "6", "X2.0", "2", "3", "4", "1"⟩]
    (by decide) (some ⟨2021, 1, 2, 0, 0, 0⟩)

end LmsalScrape
